import Mathlib

/-!
Verification of the factorize library (create_factor.hpp, combine_to_factor.hpp).

The C++ code is shallowly embedded.  The caller-chosen integer code type
`Code_` is modelled as an unsigned `w`-bit machine integer: code values are
natural numbers and every arithmetic step that the C++ performs on `Code_`
is followed by an explicit reduction modulo `2 ^ w`.  The checked-arithmetic
collaborator `sanisizer::product<Code_>` is modelled by `checkedProduct`,
returning `none` exactly when the mathematical product does not fit the code
type (the C++ function throws there).  Categorical values (`Input_`) are
modelled generically by a linear order; the full combiner instantiates them
with naturals, as its levels are themselves integers produced by `std::iota`.
Undefined behaviour reachable in the C++ (integer division by zero, writing
past the end of a resized vector) is modelled as a failing (`none`) result.
-/

namespace Factorize

/-! ## Machine arithmetic of the code type -/

/-- Reduction modulo the range of the unsigned `w`-bit code type `Code_`. -/
def wrap (w x : Nat) : Nat := x % 2 ^ w

/-- Model of `sanisizer::product<Code_>(a, b)`: the exact product when it is
representable in `Code_`, otherwise a clean failure (the C++ throws). -/
def checkedProduct (w a b : Nat) : Option Nat :=
  if a * b < 2 ^ w then some (a * b) else none

/-! ## Generic list helpers used by the embedding -/

/-- The distinct values of the second list in order of first occurrence,
appended after `acc`.  This is the insertion order of the discovery maps in
`create_factor` and `combine_to_factor`: a value is inserted the first time
it is seen, and the map only ever grows. -/
def firstSeenAcc [DecidableEq α] : List α → List α → List α
  | acc, [] => acc
  | acc, x :: xs => firstSeenAcc (if x ∈ acc then acc else acc ++ [x]) xs

/-- Distinct values in order of first occurrence. -/
def distinctFirstSeen [DecidableEq α] (l : List α) : List α := firstSeenAcc [] l

/-- Model of the remapping-table loop `remapping[unique[u].second] = u`:
a left fold of `List.set` writes over a zero-initialised vector (the
`sanisizer::create`d `std::vector<Code_>` is value-initialised to zero). -/
def remapFold (ps : List (Nat × Nat)) (init : List Nat) : List Nat :=
  ps.foldl (fun a p => a.set p.1 p.2) init

/-! ## The lexicographic tuple comparator of `combine_to_factor`

Direct translation of the comparator `cmp` (combine_to_factor.hpp, lines
68-77): compare the two observations variable by variable; the first
variable whose values differ decides; if no variable differs the result is
`false`.  A tuple is the list of one value per variable. -/

def tupLt [LinearOrder α] : List α → List α → Bool
  | a :: as, b :: bs => if a < b then true else if b < a then false else tupLt as bs
  | _, _ => false

/-! ## create_factor (create_factor.hpp, lines 39-72)

First pass: an unordered map assigns each distinct value a first-seen label
`mapping.size()` (narrowed to `Code_`, hence the `% 2 ^ w`), and writes the
label of `input[i]` into `codes[i]`.  The label of a value equals its index
in the first-occurrence-ordered list of distinct values, because the map
grows by one exactly when a new value appears.  The pairs
`(value, first-seen label)` are then sorted by `std::sort` with the
lexicographic `std::pair` order; a remapping table sends each first-seen
label to the sorted position (itself narrowed to `Code_`), and a second pass
rewrites the codes through it. -/

/-- Strict lexicographic order on `(value, label)` pairs: the order used by
`std::sort` on `std::pair<Input_, Code_>`. -/
def pairLtb [LinearOrder α] (p q : α × Nat) : Bool :=
  decide (p.1 < q.1) || (decide (p.1 = q.1) && decide (p.2 < q.2))

/-- The `(key, first-seen label)` pairs held by the discovery map: the label
of a key is its position in the first-occurrence order, narrowed to `Code_`
(the C++ stores `mapping.size()` into a `Code_`). -/
def corePairs (w : Nat) [DecidableEq β] (items : List β) : List (β × Nat) :=
  (distinctFirstSeen items).enum.map (fun p => (p.2, wrap w p.1))

/-- The pairs arranged in the order the second phase iterates them: sorted
by the strict comparator `pltb` (for `create_factor` this is `std::sort`
with the `std::pair` order; for `combine_to_factor` it is the ordered
iteration of the `std::map`, whose comparator ignores the label). -/
def coreSorted (w : Nat) [DecidableEq β] (pltb : β × Nat → β × Nat → Bool)
    [DecidableEq β] (items : List β) : List (β × Nat) :=
  List.insertionSort (fun p q => pltb q p = false) (corePairs w items)

/-- The remapping table: position `u` of the sorted order is written (as a
`Code_`) at index `unique[u].second`, over a zero-initialised vector of
length `nuniq`. -/
def coreRemap (w : Nat) [DecidableEq β] (pltb : β × Nat → β × Nat → Bool)
    (items : List β) : List Nat :=
  remapFold ((coreSorted w pltb items).enum.map (fun q => (q.2.2, wrap w q.1)))
    (List.replicate (distinctFirstSeen items).length 0)

/-- The common sort-and-remap pipeline of `create_factor` and the general
path of `combine_to_factor`, parameterised by the strict comparator `pltb`
used to order the `(key, first-seen label)` pairs.  Returns the sorted pairs
and the final codes (one per element of `items`, in order): the provisional
code of an observation is the (narrowed) first-seen label of its key, and
the final pass rewrites it through the remapping table. -/
def factorCore (w : Nat) [DecidableEq β] (pltb : β × Nat → β × Nat → Bool)
    (items : List β) : List (β × Nat) × List Nat :=
  (coreSorted w pltb items,
    items.map (fun x => (coreRemap w pltb items).getD
      (wrap w ((distinctFirstSeen items).indexOf x)) 0))

/-- Model of `create_factor(n, input, codes)`: returns the level vector and
the final content of the `codes` array. -/
def create_factor (w n : Nat) [LinearOrder α] (input : List α) : List α × List Nat :=
  let core := factorCore w pairLtb (input.take n)
  (core.1.map Prod.fst, core.2)

/-! ## combine_to_factor (combine_to_factor.hpp, lines 43-124) -/

/-- The tuple of observation `i` across all variables: the C++ comparator
dereferences `inputs[f][index]` for each variable `f`. -/
def tupleAt [Inhabited α] (inputs : List (List α)) (i : Nat) : List α :=
  inputs.map (fun col => col.getD i default)

/-- All observation tuples, in observation order. -/
def obsTuples [Inhabited α] (n : Nat) (inputs : List (List α)) : List (List α) :=
  (List.range n).map (tupleAt inputs)

/-- Model of `combine_to_factor(n, inputs, codes)`: returns the table of
per-variable level columns and the final content of the `codes` array.
The `ninputs == 0` case fills the codes with zeros; `ninputs == 1` delegates
to `create_factor`; otherwise an ordered map keyed by first-occurrence index
and compared through the tuples (ordered iteration replaces the sort of
`create_factor`) discovers the unique combinations. -/
def combine_to_factor (w n : Nat) [LinearOrder α] [Inhabited α]
    (inputs : List (List α)) : List (List α) × List Nat :=
  if inputs.length = 0 then ([], List.replicate n 0)
  else if inputs.length = 1 then
    let r := create_factor w n (inputs.headD [])
    ([r.1], r.2)
  else
    let core := factorCore w (fun p q => tupLt p.1 q.1) (obsTuples n inputs)
    ((List.range inputs.length).map
        (fun f => core.1.map (fun p => p.1.getD f default)),
      core.2)

/-! ## combine_to_factor_unused (combine_to_factor.hpp, lines 149-211)

Values of the input variables are naturals (the factor type is integral:
the output levels are produced by `std::iota` from zero).  Each variable is
given as `(values, cardinality)`.  The function returns the final content of
the caller-supplied `codes` array together with `some table` on success;
`none` models a thrown overflow error or undefined behaviour (division of
`outer_repeats` by a zero cardinality, or `std::fill_n` running past the
vector resized to a wrapped `initial_size`).  In the failure cases the codes
array keeps the writes made before the failing point, as a C++ exception
would leave it. -/

/-- The back-to-front code loop (lines 166-178), processing the variables
before the last one in reverse order.  At each stage the running base
`ncombos` is multiplied by the cardinality through the checked product
before the per-observation accumulation `codes[i] += ncombos * ff[i]`,
whose arithmetic is unchecked `Code_` arithmetic (hence the `% 2 ^ w`). -/
def mixedRadixLoop (w : Nat) : List (List Nat × Nat) → List Nat → Nat →
    List Nat × Option Nat
  | [], codes, ncombos => (codes, some ncombos)
  | (vals, card) :: rest, codes, ncombos =>
    match checkedProduct w ncombos card with
    | none => (codes, none)
    | some next =>
      mixedRadixLoop w rest
        (codes.zipWith (fun c v => wrap w (c + ncombos * v)) vals) next

/-- The table-construction loop (lines 183-208), processing cardinalities
from the last variable to the first.  For each variable: `initial_size`
is the unchecked `Code_` product `inner_repeats * cardinality`; the column
is resized to it and filled either by `std::iota` (when `inner_repeats` is
one) or by run-length blocks of each level repeated `inner_repeats` times
(undefined behaviour, hence `none`, if that would write past the wrapped
`initial_size`); then `outer_repeats /= cardinality` (undefined behaviour,
hence `none`, on a zero cardinality) and the initial segment is appended
`outer_repeats - 1` further times.  Columns are returned in variable
order. -/
def tableLoop (w : Nat) : List Nat → Nat → Nat → Option (List (List Nat))
  | [], _, _ => some []
  | card :: rest, inner, outer =>
    let initial := wrap w (inner * card)
    let block? : Option (List Nat) :=
      if inner = 1 then some (List.range initial)
      else if inner * card < 2 ^ w then
        some ((List.range card).flatMap (fun l => List.replicate inner l))
      else none
    match block? with
    | none => none
    | some block =>
      if card = 0 then none
      else
        let outer2 := outer / card
        let col := block ++ (List.replicate (outer2 - 1) block).flatten
        match tableLoop w rest initial outer2 with
        | none => none
        | some cols => some (cols ++ [col])

/-- Model of `combine_to_factor_unused(n, inputs, codes)`.  `codes0` is the
content of the caller-supplied codes array before the call; the first
component of the result is its content when the call returns or when the
failure escapes. -/
def combine_to_factor_unused (w n : Nat) (inputs : List (List Nat × Nat))
    (codes0 : List Nat) : List Nat × Option (List (List Nat)) :=
  if inputs.length = 0 then
    (List.replicate n 0 ++ codes0.drop n, some [])
  else if inputs.length = 1 then
    let p := inputs.headD ([], 0)
    ((p.1.take n).map (wrap w) ++ codes0.drop n,
      some [(List.range p.2).map (wrap w)])
  else
    let pLast := inputs.getLastD ([], 0)
    let codes1 := (pLast.1.take n).map (wrap w)
    let run := mixedRadixLoop w inputs.dropLast.reverse codes1 (wrap w pLast.2)
    match run.2 with
    | none => (run.1 ++ codes0.drop n, none)
    | some ncombos =>
      (run.1 ++ codes0.drop n, tableLoop w (inputs.map Prod.snd).reverse 1 ncombos)

/-! ## Facts about the first-seen discovery order -/

theorem firstSeenAcc_nodup [DecidableEq α] :
    ∀ (l acc : List α), acc.Nodup → (firstSeenAcc acc l).Nodup
  | [], _, h => h
  | x :: xs, acc, h => by
    rw [firstSeenAcc]
    refine firstSeenAcc_nodup xs _ ?_
    by_cases hx : x ∈ acc
    · simpa [hx] using h
    · simp [hx, List.nodup_append, h]

theorem firstSeenAcc_mem [DecidableEq α] :
    ∀ (l acc : List α) (y : α), y ∈ firstSeenAcc acc l ↔ y ∈ acc ∨ y ∈ l
  | [], acc, y => by simp [firstSeenAcc]
  | x :: xs, acc, y => by
    rw [firstSeenAcc, firstSeenAcc_mem xs]
    by_cases hx : x ∈ acc
    · simp only [if_pos hx, List.mem_cons]
      constructor
      · rintro (h | h)
        · exact Or.inl h
        · exact Or.inr (Or.inr h)
      · rintro (h | h | h)
        · exact Or.inl h
        · exact Or.inl (h ▸ hx)
        · exact Or.inr h
    · simp only [if_neg hx, List.mem_append, List.mem_singleton, List.mem_cons]
      tauto

theorem distinctFirstSeen_nodup [DecidableEq α] (l : List α) :
    (distinctFirstSeen l).Nodup :=
  firstSeenAcc_nodup l [] List.nodup_nil

theorem distinctFirstSeen_mem [DecidableEq α] (l : List α) (y : α) :
    y ∈ distinctFirstSeen l ↔ y ∈ l := by
  rw [distinctFirstSeen, firstSeenAcc_mem]
  simp

/-! ## Facts about the remapping-table fold -/

theorem remapFold_length (ps : List (Nat × Nat)) (init : List Nat) :
    (remapFold ps init).length = init.length := by
  induction ps generalizing init with
  | nil => rfl
  | cons p ps ih => rw [remapFold, List.foldl_cons, ← remapFold, ih, List.length_set]

theorem remapFold_cons (p : Nat × Nat) (ps : List (Nat × Nat)) (init : List Nat) :
    remapFold (p :: ps) init = remapFold ps (init.set p.1 p.2) := rfl

theorem remapFold_getD_notMem (ps : List (Nat × Nat)) (init : List Nat) (j : Nat)
    (hj : j ∉ ps.map Prod.fst) : (remapFold ps init).getD j 0 = init.getD j 0 := by
  induction ps generalizing init with
  | nil => rfl
  | cons p ps ih =>
    rw [remapFold_cons, ih _ (by simp at hj; simp [hj])]
    rcases Nat.lt_or_ge j init.length with hlen | hlen
    · have hne : p.1 ≠ j := by simp at hj; exact fun e => hj.1 e.symm
      rw [List.getD_eq_getElem _ _ (by simpa using hlen),
        List.getD_eq_getElem _ _ hlen, List.getElem_set_ne hne]
    · rw [List.getD_eq_default _ _ (by simpa using hlen), List.getD_eq_default _ _ hlen]

theorem remapFold_getD (ps : List (Nat × Nat)) (init : List Nat)
    (hnd : (ps.map Prod.fst).Nodup) (j v : Nat) (hmem : (j, v) ∈ ps)
    (hj : j < init.length) : (remapFold ps init).getD j 0 = v := by
  induction ps generalizing init with
  | nil => cases hmem
  | cons p ps ih =>
    rcases List.mem_cons.mp hmem with rfl | hmem
    · rw [remapFold_cons,
        remapFold_getD_notMem _ _ _ (by simpa using (List.nodup_cons.mp hnd).1),
        List.getD_eq_getElem _ _ (by simpa using hj), List.getElem_set_self]
    · exact ih _ (List.nodup_cons.mp hnd).2 hmem (by simpa using hj)

theorem remapFold_bounded (ps : List (Nat × Nat)) (init : List Nat) (B : Nat)
    (hinit : ∀ x ∈ init, x < B) (hps : ∀ p ∈ ps, p.2 < B) :
    ∀ x ∈ remapFold ps init, x < B := by
  induction ps generalizing init with
  | nil => exact hinit
  | cons p ps ih =>
    rw [remapFold_cons]
    refine ih _ (fun x hx => ?_) (fun q hq => hps q (List.mem_cons_of_mem _ hq))
    rcases List.mem_or_eq_of_mem_set hx with h | rfl
    · exact hinit x h
    · exact hps p (List.mem_cons_self p ps)

/-! ## Sortedness of insertion sort under local totality and transitivity

The relations used to model `std::sort` and the ordered `std::map` are total
and transitive only on tuples of a common length, so the Mathlib lemma with
its global typeclass assumptions does not apply; this is the same induction
restricted to elements satisfying a predicate `P`. -/

theorem orderedInsert_sorted_on (r : α → α → Prop) [DecidableRel r] (P : α → Prop)
    (htot : ∀ x y, P x → P y → ¬ r x y → r y x)
    (htrans : ∀ x y z, P x → P y → P z → r x y → r y z → r x z) :
    ∀ (l : List α) (a : α), P a → (∀ x ∈ l, P x) → l.Sorted r →
      (l.orderedInsert r a).Sorted r
  | [], a, _, _, _ => List.sorted_singleton a
  | b :: l, a, ha, hmem, hsort => by
    rw [List.orderedInsert]
    by_cases hab : r a b
    · rw [if_pos hab]
      refine List.sorted_cons.mpr ⟨fun c hc => ?_, hsort⟩
      rcases List.mem_cons.mp hc with rfl | hc
      · exact hab
      · exact htrans a b c ha (hmem b (List.mem_cons_self b l))
          (hmem c (List.mem_cons_of_mem _ hc)) hab
          (List.rel_of_sorted_cons hsort c hc)
    · rw [if_neg hab]
      refine List.sorted_cons.mpr ⟨fun c hc => ?_,
        orderedInsert_sorted_on r P htot htrans l a ha
          (fun x hx => hmem x (List.mem_cons_of_mem _ hx)) hsort.of_cons⟩
      rcases (List.mem_orderedInsert r).mp hc with rfl | hc
      · exact htot _ _ ha (hmem b (List.mem_cons_self b l)) hab
      · exact List.rel_of_sorted_cons hsort c hc

theorem insertionSort_sorted_on (r : α → α → Prop) [DecidableRel r] (P : α → Prop)
    (htot : ∀ x y, P x → P y → ¬ r x y → r y x)
    (htrans : ∀ x y z, P x → P y → P z → r x y → r y z → r x z) :
    ∀ l : List α, (∀ x ∈ l, P x) → (l.insertionSort r).Sorted r
  | [], _ => List.sorted_nil
  | a :: l, hmem => by
    rw [List.insertionSort]
    refine orderedInsert_sorted_on r P htot htrans _ a
      (hmem a (List.mem_cons_self a l)) (fun x hx => hmem x ?_)
      (insertionSort_sorted_on r P htot htrans l
        (fun x hx => hmem x (List.mem_cons_of_mem _ hx)))
    exact List.mem_cons_of_mem _ ((List.mem_insertionSort r).mp hx)

/-! ## Order facts about the tuple comparator -/

theorem tupLt_irrefl [LinearOrder α] : ∀ a : List α, tupLt a a = false
  | [] => rfl
  | x :: xs => by simp [tupLt, tupLt_irrefl xs]

theorem tupLt_asymm [LinearOrder α] :
    ∀ a b : List α, tupLt a b = true → tupLt b a = false
  | a :: as, b :: bs, h => by
    rw [tupLt] at h ⊢
    by_cases hab : a < b
    · rw [if_neg (asymm hab), if_pos hab]
    · rw [if_neg hab] at h
      by_cases hba : b < a
      · rw [if_pos hba] at h
        exact absurd h (by simp)
      · rw [if_neg hba, if_neg hab]
        exact tupLt_asymm as bs (by rwa [if_neg hba] at h)

theorem tupLt_antisymm [LinearOrder α] :
    ∀ a b : List α, a.length = b.length → tupLt a b = false → tupLt b a = false →
      a = b
  | [], [], _, _, _ => rfl
  | a :: as, b :: bs, hlen, hab, hba => by
    rw [tupLt] at hab hba
    by_cases h1 : a < b
    · rw [if_pos h1] at hab
      exact absurd hab (by simp)
    by_cases h2 : b < a
    · rw [if_pos h2] at hba
      exact absurd hba (by simp)
    rw [if_neg h1, if_neg h2] at hab
    rw [if_neg h2, if_neg h1] at hba
    rw [le_antisymm (not_lt.mp h2) (not_lt.mp h1),
      tupLt_antisymm as bs (by simpa using hlen) hab hba]

theorem tupLt_le_trans [LinearOrder α] :
    ∀ a b c : List α, a.length = b.length → b.length = c.length →
      tupLt b a = false → tupLt c b = false → tupLt c a = false
  | [], [], [], _, _, _, _ => rfl
  | a :: as, b :: bs, c :: cs, hlen1, hlen2, hba, hcb => by
    rw [tupLt] at hba hcb ⊢
    have hba1 : ¬ b < a := fun h => by rw [if_pos h] at hba; exact absurd hba (by simp)
    have hcb1 : ¬ c < b := fun h => by rw [if_pos h] at hcb; exact absurd hcb (by simp)
    have hca : ¬ c < a := fun h => hcb1 (lt_of_lt_of_le h (not_lt.mp hba1))
    rw [if_neg hca]
    by_cases hac : a < c
    · rw [if_pos hac]
    · rw [if_neg hac]
      have hab : ¬ a < b := fun h => hac (lt_of_lt_of_le h (not_lt.mp hcb1))
      have hbc : ¬ b < c := fun h =>
        hac (lt_of_le_of_lt (not_lt.mp hba1) h)
      rw [if_neg hba1, if_neg hab] at hba
      rw [if_neg hcb1, if_neg hbc] at hcb
      exact tupLt_le_trans as bs cs (by simpa using hlen1) (by simpa using hlen2)
        hba hcb

theorem tupLt_singleton [LinearOrder α] (a b : α) :
    tupLt [a] [b] = decide (a < b) := by
  rcases lt_trichotomy a b with h | rfl | h
  · simp [tupLt, h]
  · simp [tupLt, lt_irrefl]
  · simp [tupLt, h, not_lt.mpr h.le]

/-! ## Order facts about the pair comparator of create_factor -/

theorem pairLtb_asymm [LinearOrder α] :
    ∀ p q : α × Nat, pairLtb p q = true → pairLtb q p = false
  | (p1, p2), (q1, q2) => by
    simp only [pairLtb, Bool.or_eq_true, Bool.and_eq_true, decide_eq_true_eq,
      Bool.or_eq_false_iff, Bool.and_eq_false_iff, decide_eq_false_iff_not]
    rintro (h | ⟨rfl, h⟩)
    · exact ⟨not_lt.mpr h.le, Or.inl (ne_of_gt h)⟩
    · exact ⟨lt_irrefl _, Or.inr (not_lt.mpr h.le)⟩

theorem pairLtb_total [LinearOrder α] :
    ∀ p q : α × Nat, pairLtb p q = false → pairLtb q p = false → p = q
  | (p1, p2), (q1, q2) => by
    simp only [pairLtb, Bool.or_eq_false_iff, Bool.and_eq_false_iff,
      decide_eq_false_iff_not, Prod.mk.injEq]
    rintro ⟨h1, h2⟩ ⟨h3, h4⟩
    have hfst : p1 = q1 := le_antisymm (not_lt.mp h3) (not_lt.mp h1)
    rcases h2 with h2 | h2
    · exact absurd hfst h2
    rcases h4 with h4 | h4
    · exact absurd hfst.symm h4
    exact ⟨hfst, le_antisymm (not_lt.mp h4) (not_lt.mp h2)⟩

theorem pairLtb_le_trans [LinearOrder α] :
    ∀ p q s : α × Nat, pairLtb q p = false → pairLtb s q = false →
      pairLtb s p = false
  | (p1, p2), (q1, q2), (s1, s2) => by
    simp only [pairLtb, Bool.or_eq_false_iff, Bool.and_eq_false_iff,
      decide_eq_false_iff_not]
    rintro ⟨h1, h2⟩ ⟨h3, h4⟩
    have hle1 : p1 ≤ q1 := not_lt.mp h1
    have hle2 : q1 ≤ s1 := not_lt.mp h3
    refine ⟨not_lt.mpr (hle1.trans hle2), ?_⟩
    rcases eq_or_lt_of_le (hle1.trans hle2) with heq | hlt
    · have e1 : p1 = q1 := le_antisymm hle1 (heq ▸ hle2)
      have e2 : q1 = s1 := e1 ▸ heq
      rcases h2 with h2 | h2
      · exact absurd e1.symm h2
      rcases h4 with h4 | h4
      · exact absurd e2.symm h4
      · exact Or.inr (not_lt.mpr ((not_lt.mp h2).trans (not_lt.mp h4)))
    · exact Or.inl (ne_of_gt hlt)

/-! ## Characterisation of the sort-and-remap pipeline -/

theorem corePairs_length (w : Nat) [DecidableEq β] (items : List β) :
    (corePairs w items).length = (distinctFirstSeen items).length := by
  simp [corePairs]

theorem corePairs_getElem (w : Nat) [DecidableEq β] (items : List β) (j : Nat)
    (h : j < (corePairs w items).length)
    (hj : j < (distinctFirstSeen items).length) :
    (corePairs w items)[j] = ((distinctFirstSeen items)[j], wrap w j) := by
  simp [corePairs]

theorem corePairs_map_fst (w : Nat) [DecidableEq β] (items : List β) :
    (corePairs w items).map Prod.fst = distinctFirstSeen items := by
  rw [corePairs, List.map_map]
  exact List.enum_map_snd _

theorem corePairs_snd (w : Nat) [DecidableEq β] (items : List β) :
    ∀ p ∈ corePairs w items,
      p.2 = wrap w ((distinctFirstSeen items).indexOf p.1) := by
  intro p hp
  obtain ⟨j, hj, rfl⟩ := List.mem_iff_getElem.mp hp
  rw [corePairs_getElem w items j hj (by simpa [corePairs_length] using hj)]
  simp only []
  rw [List.indexOf_getElem (distinctFirstSeen_nodup items)]

theorem coreSorted_perm (w : Nat) [DecidableEq β]
    (pltb : β × Nat → β × Nat → Bool) (items : List β) :
    (coreSorted w pltb items).Perm (corePairs w items) :=
  List.perm_insertionSort _ _

theorem coreSorted_length (w : Nat) [DecidableEq β]
    (pltb : β × Nat → β × Nat → Bool) (items : List β) :
    (coreSorted w pltb items).length = (distinctFirstSeen items).length := by
  rw [(coreSorted_perm w pltb items).length_eq, corePairs_length]

theorem coreSorted_fst_perm (w : Nat) [DecidableEq β]
    (pltb : β × Nat → β × Nat → Bool) (items : List β) :
    ((coreSorted w pltb items).map Prod.fst).Perm (distinctFirstSeen items) := by
  rw [← corePairs_map_fst w items]
  exact (coreSorted_perm w pltb items).map Prod.fst

theorem coreSorted_fst_nodup (w : Nat) [DecidableEq β]
    (pltb : β × Nat → β × Nat → Bool) (items : List β) :
    ((coreSorted w pltb items).map Prod.fst).Nodup :=
  (coreSorted_fst_perm w pltb items).nodup_iff.mpr (distinctFirstSeen_nodup items)

theorem coreSorted_fst_mem (w : Nat) [DecidableEq β]
    (pltb : β × Nat → β × Nat → Bool) (items : List β) (x : β) (hx : x ∈ items) :
    x ∈ (coreSorted w pltb items).map Prod.fst :=
  (coreSorted_fst_perm w pltb items).mem_iff.mpr
    ((distinctFirstSeen_mem items x).mpr hx)

theorem coreSorted_snd (w : Nat) [DecidableEq β]
    (pltb : β × Nat → β × Nat → Bool) (items : List β) :
    ∀ p ∈ coreSorted w pltb items,
      p.2 = wrap w ((distinctFirstSeen items).indexOf p.1) := fun p hp =>
  corePairs_snd w items p ((coreSorted_perm w pltb items).mem_iff.mp hp)

theorem coreSorted_fst_mem_dts (w : Nat) [DecidableEq β]
    (pltb : β × Nat → β × Nat → Bool) (items : List β) :
    ∀ p ∈ coreSorted w pltb items, p.1 ∈ distinctFirstSeen items := by
  intro p hp
  have : p.1 ∈ (coreSorted w pltb items).map Prod.fst :=
    List.mem_map.mpr ⟨p, hp, rfl⟩
  exact (coreSorted_fst_perm w pltb items).mem_iff.mp this

/-- Under the representability hypothesis `nuniq ≤ 2 ^ w` the narrowed
first-seen labels of the sorted pairs are exactly the first-occurrence
indices, hence pairwise distinct. -/
theorem coreSorted_snd_nodup (w : Nat) [DecidableEq β]
    (pltb : β × Nat → β × Nat → Bool) (items : List β)
    (hw : (distinctFirstSeen items).length ≤ 2 ^ w) :
    ((coreSorted w pltb items).map Prod.snd).Nodup := by
  have hnd : (coreSorted w pltb items).Nodup :=
    (coreSorted_fst_nodup w pltb items).of_map _
  refine List.Nodup.map_on ?_ hnd
  intro p hp q hq hpq
  have hp1 := coreSorted_fst_mem_dts w pltb items p hp
  have hq1 := coreSorted_fst_mem_dts w pltb items q hq
  have hip : (distinctFirstSeen items).indexOf p.1 < 2 ^ w :=
    lt_of_lt_of_le (List.indexOf_lt_length.mpr hp1) hw
  have hiq : (distinctFirstSeen items).indexOf q.1 < 2 ^ w :=
    lt_of_lt_of_le (List.indexOf_lt_length.mpr hq1) hw
  rw [coreSorted_snd w pltb items p hp, coreSorted_snd w pltb items q hq,
    wrap, wrap, Nat.mod_eq_of_lt hip, Nat.mod_eq_of_lt hiq] at hpq
  have hfst : p.1 = q.1 := (List.indexOf_inj hp1 hq1).mp hpq
  have : p.2 = q.2 := by
    rw [coreSorted_snd w pltb items p hp, coreSorted_snd w pltb items q hq, hfst]
  exact Prod.ext hfst this

/-- The remapping table sends the label of the pair at sorted position `u`
to `u` itself, when the number of uniques is representable. -/
theorem coreRemap_getD (w : Nat) [DecidableEq β]
    (pltb : β × Nat → β × Nat → Bool) (items : List β)
    (hw : (distinctFirstSeen items).length ≤ 2 ^ w) (u : Nat)
    (hu : u < (coreSorted w pltb items).length) :
    (coreRemap w pltb items).getD ((coreSorted w pltb items)[u].2) 0 = u := by
  have hlen := coreSorted_length w pltb items
  have hmemp : (coreSorted w pltb items)[u] ∈ coreSorted w pltb items :=
    List.getElem_mem hu
  have hdts := coreSorted_fst_mem_dts w pltb items _ hmemp
  have hidx : (distinctFirstSeen items).indexOf (coreSorted w pltb items)[u].1 <
      (distinctFirstSeen items).length := List.indexOf_lt_length.mpr hdts
  have hsndlt : (coreSorted w pltb items)[u].2 < (distinctFirstSeen items).length := by
    rw [coreSorted_snd w pltb items _ hmemp]
    exact lt_of_le_of_lt (Nat.mod_le _ _) hidx
  rw [coreRemap]
  refine remapFold_getD _ _ ?_ _ _ ?_ (by simpa using hsndlt)
  · have : ((coreSorted w pltb items).enum.map
        (fun q => (q.2.2, wrap w q.1))).map Prod.fst =
        (coreSorted w pltb items).map Prod.snd := by
      rw [List.map_map]
      have := List.enum_map_snd (coreSorted w pltb items)
      calc ((coreSorted w pltb items).enum.map
            (fun q => ((Prod.fst ∘ fun q => (q.2.2, wrap w q.1)) q)))
          = ((coreSorted w pltb items).enum.map (fun q => q.2.2)) := rfl
        _ = (((coreSorted w pltb items).enum.map Prod.snd).map Prod.snd) := by
            rw [List.map_map]; rfl
        _ = (coreSorted w pltb items).map Prod.snd := by rw [this]
    rw [this]
    exact coreSorted_snd_nodup w pltb items hw
  · refine List.mem_map.mpr ⟨(u, (coreSorted w pltb items)[u]), ?_, ?_⟩
    · rw [List.mem_iff_getElem]
      exact ⟨u, by simpa using hu, by simp⟩
    · have : wrap w u = u := Nat.mod_eq_of_lt (lt_of_lt_of_le (hlen ▸ hu) hw)
      simp [this]

/-- Main characterisation of the codes produced by the pipeline: when the
number of uniques is representable in the code type, the final code of every
observation is the position of its key in the sorted unique order. -/
theorem factorCore_codes (w : Nat) [DecidableEq β]
    (pltb : β × Nat → β × Nat → Bool) (items : List β)
    (hw : (distinctFirstSeen items).length ≤ 2 ^ w) :
    (factorCore w pltb items).2 =
      items.map (fun x => ((coreSorted w pltb items).map Prod.fst).indexOf x) := by
  rw [factorCore]
  refine List.map_congr_left (fun x hx => ?_)
  have hxs : x ∈ (coreSorted w pltb items).map Prod.fst :=
    coreSorted_fst_mem w pltb items x hx
  set u := ((coreSorted w pltb items).map Prod.fst).indexOf x with hu
  have hult : u < (coreSorted w pltb items).length := by
    have := List.indexOf_lt_length.mpr hxs
    simpa using this
  have hgetu : (coreSorted w pltb items)[u].1 = x := by
    have := List.getElem_indexOf (l := (coreSorted w pltb items).map Prod.fst)
      (a := x) (by simpa using hult)
    rwa [List.getElem_map] at this
  have hsnd : (coreSorted w pltb items)[u].2 =
      wrap w ((distinctFirstSeen items).indexOf x) := by
    rw [coreSorted_snd w pltb items _ (List.getElem_mem hult), hgetu]
  rw [← hsnd, coreRemap_getD w pltb items hw u hult]

/-- The keys listed in sorted position order are a permutation of the
distinct keys; position `u` holds the key at sorted position `u`. -/
theorem factorCore_codes_getD (w : Nat) [DecidableEq β]
    (pltb : β × Nat → β × Nat → Bool) (items : List β)
    (hw : (distinctFirstSeen items).length ≤ 2 ^ w) (i : Nat)
    (hi : i < items.length) :
    (factorCore w pltb items).2.getD i 0 =
      ((coreSorted w pltb items).map Prod.fst).indexOf items[i] := by
  rw [factorCore_codes w pltb items hw,
    List.getD_eq_getElem _ _ (by simpa using hi), List.getElem_map]

/-- The sorted unique keys (levels or combinations) of the pipeline. -/
def sortedKeys (w : Nat) [DecidableEq β] (pltb : β × Nat → β × Nat → Bool)
    (items : List β) : List β := (coreSorted w pltb items).map Prod.fst

/-- The sorted position of a key. -/
def keyIndex (w : Nat) [DecidableEq β] (pltb : β × Nat → β × Nat → Bool)
    (items : List β) (x : β) : Nat := (sortedKeys w pltb items).indexOf x

theorem keyIndex_lt (w : Nat) [DecidableEq β] (pltb : β × Nat → β × Nat → Bool)
    (items : List β) (x : β) (hx : x ∈ sortedKeys w pltb items) :
    keyIndex w pltb items x < (sortedKeys w pltb items).length :=
  List.indexOf_lt_length.mpr hx

theorem keyIndex_getElem (w : Nat) [DecidableEq β]
    (pltb : β × Nat → β × Nat → Bool) (items : List β) (x : β)
    (hx : x ∈ sortedKeys w pltb items)
    (h : keyIndex w pltb items x < (coreSorted w pltb items).length) :
    (coreSorted w pltb items)[keyIndex w pltb items x].1 = x := by
  have h2 : keyIndex w pltb items x < (sortedKeys w pltb items).length := by
    rw [sortedKeys, List.length_map]
    exact h
  have := List.getElem_indexOf (l := sortedKeys w pltb items) (a := x) h2
  simp only [sortedKeys] at this
  rwa [List.getElem_map] at this

/-! ## Rows of a returned table -/

/-- Row `j` of a table given as a list of per-variable columns: one value
per variable, read at index `j` of each column. -/
def rowAt [Inhabited α] (table : List (List α)) (j : Nat) : List α :=
  table.map (fun col => col.getD j default)

/-- The number of rows of a table, read off its first column (all columns
of a well-formed table have the same length; a table without columns has no
rows). -/
def nrows (table : List (List α)) : Nat := (table.headD []).length

/-! ## Instantiation facts: create_factor -/

theorem pairLtb_false_fst_le [LinearOrder α] (p q : α × Nat)
    (h : pairLtb q p = false) : p.1 ≤ q.1 := by
  simp only [pairLtb, Bool.or_eq_false_iff, Bool.and_eq_false_iff,
    decide_eq_false_iff_not] at h
  exact not_lt.mp h.1

theorem coreSorted_sorted_pair [LinearOrder α] (w : Nat) (items : List α) :
    (coreSorted w pairLtb items).Sorted (fun p q => pairLtb q p = false) := by
  refine insertionSort_sorted_on _ (fun _ => True) ?_ ?_ _ (fun x _ => trivial)
  · intro x y _ _ h
    have ht : pairLtb y x = true := by
      cases hc : pairLtb y x
      · exact absurd hc h
      · rfl
    exact pairLtb_asymm y x ht
  · intro x y z _ _ _ h1 h2
    exact pairLtb_le_trans x y z h1 h2

theorem create_factor_levels [LinearOrder α] (w n : Nat) (input : List α) :
    (create_factor w n input).1 =
      (coreSorted w pairLtb (input.take n)).map Prod.fst := rfl

theorem create_factor_codes [LinearOrder α] (w n : Nat) (input : List α)
    (hw : (distinctFirstSeen (input.take n)).length ≤ 2 ^ w) :
    (create_factor w n input).2 =
      (input.take n).map (fun x => ((create_factor w n input).1).indexOf x) := by
  rw [create_factor_levels]
  exact factorCore_codes w pairLtb (input.take n) hw

theorem create_factor_levels_sorted [LinearOrder α] (w n : Nat) (input : List α) :
    (create_factor w n input).1.Sorted (· ≤ ·) := by
  rw [create_factor_levels]
  exact List.Pairwise.map Prod.fst (fun p q h => pairLtb_false_fst_le p q h)
    (coreSorted_sorted_pair w (input.take n))

theorem create_factor_levels_nodup [LinearOrder α] (w n : Nat) (input : List α) :
    (create_factor w n input).1.Nodup := by
  rw [create_factor_levels]
  exact coreSorted_fst_nodup w pairLtb (input.take n)

theorem create_factor_levels_perm [LinearOrder α] (w n : Nat) (input : List α) :
    ((create_factor w n input).1).Perm (distinctFirstSeen (input.take n)) := by
  rw [create_factor_levels]
  exact coreSorted_fst_perm w pairLtb (input.take n)

/-! ## Instantiation facts: the general path of combine_to_factor -/

/-- The comparator handed by `combine_to_factor` to the ordered map: the
first-seen label plays no part, only the tuples are compared. -/
def combLtb [LinearOrder α] (p q : List α × Nat) : Bool := tupLt p.1 q.1

theorem combine_to_factor_eq [LinearOrder α] [Inhabited α] (w n : Nat)
    (inputs : List (List α)) (h2 : 2 ≤ inputs.length) :
    combine_to_factor w n inputs =
      ((List.range inputs.length).map
          (fun f => (coreSorted w combLtb (obsTuples n inputs)).map
            (fun p => p.1.getD f default)),
        (factorCore w combLtb (obsTuples n inputs)).2) := by
  rw [combine_to_factor, if_neg (by omega), if_neg (by omega)]
  rfl

theorem tupleAt_length [Inhabited α] (inputs : List (List α)) (i : Nat) :
    (tupleAt inputs i).length = inputs.length := by
  simp [tupleAt]

theorem obsTuples_length_mem [Inhabited α] (n : Nat) (inputs : List (List α)) :
    ∀ t ∈ obsTuples n inputs, t.length = inputs.length := by
  intro t ht
  obtain ⟨i, _, rfl⟩ := List.mem_map.mp ht
  exact tupleAt_length inputs i

theorem coreSorted_comb_tuple_length [LinearOrder α] [Inhabited α]
    (w n : Nat) (inputs : List (List α)) :
    ∀ p ∈ coreSorted w combLtb (obsTuples n inputs),
      p.1.length = inputs.length := fun p hp =>
  obsTuples_length_mem n inputs p.1
    ((distinctFirstSeen_mem _ _).mp (coreSorted_fst_mem_dts w _ _ p hp))

theorem coreSorted_sorted_comb [LinearOrder α] [Inhabited α]
    (w n : Nat) (inputs : List (List α)) :
    (coreSorted w combLtb (obsTuples n inputs)).Sorted
      (fun p q => combLtb q p = false) := by
  refine insertionSort_sorted_on _ (fun p => p.1.length = inputs.length)
    ?_ ?_ _ ?_
  · intro x y _ _ h
    have ht : combLtb y x = true := by
      cases hc : combLtb y x
      · exact absurd hc h
      · rfl
    show tupLt x.1 y.1 = false
    exact tupLt_asymm y.1 x.1 ht
  · intro x y z hx hy hz h1 h2
    show tupLt z.1 x.1 = false
    exact tupLt_le_trans x.1 y.1 z.1 (hx.trans hy.symm) (hy.trans hz.symm) h1 h2
  · intro p hp
    have : p.1 ∈ (corePairs w (obsTuples n inputs)).map Prod.fst :=
      List.mem_map.mpr ⟨p, hp, rfl⟩
    rw [corePairs_map_fst] at this
    exact obsTuples_length_mem n inputs p.1 ((distinctFirstSeen_mem _ _).mp this)

theorem combine_rowAt [LinearOrder α] [Inhabited α] (w n : Nat)
    (inputs : List (List α)) (h2 : 2 ≤ inputs.length) (j : Nat)
    (hj : j < (coreSorted w combLtb (obsTuples n inputs)).length) :
    rowAt (combine_to_factor w n inputs).1 j =
      (coreSorted w combLtb (obsTuples n inputs))[j].1 := by
  rw [combine_to_factor_eq w n inputs h2]
  have hlen : (coreSorted w combLtb (obsTuples n inputs))[j].1.length =
      inputs.length :=
    coreSorted_comb_tuple_length w n inputs _ (List.getElem_mem hj)
  refine List.ext_getElem (by simp [rowAt, hlen]) ?_
  intro f hf1 hf2
  simp only [rowAt, List.getElem_map, List.getElem_range]
  rw [List.getD_eq_getElem _ _ (by simpa using hj), List.getElem_map,
    List.getD_eq_getElem _ _ (by omega)]

theorem combine_nrows [LinearOrder α] [Inhabited α] (w n : Nat)
    (inputs : List (List α)) (h2 : 2 ≤ inputs.length) :
    nrows (combine_to_factor w n inputs).1 =
      (coreSorted w combLtb (obsTuples n inputs)).length := by
  rw [combine_to_factor_eq w n inputs h2, nrows]
  obtain ⟨k, hk⟩ : ∃ k, inputs.length = k + 1 :=
    ⟨inputs.length - 1, by omega⟩
  rw [hk, List.range_succ_eq_map]
  simp

/-! ## Mixed-radix rank and unrank

`rankOf cards values` is the positional code of a tuple of per-variable
values for the given per-variable cardinalities (first variable
slowest-varying); `unrank cards j` recovers the tuple from a code.  These
are the mathematical companions of the code loop and of the table of
`combine_to_factor_unused`. -/

def rankOf : List Nat → List Nat → Nat
  | _ :: cs, v :: vs => v * cs.prod + rankOf cs vs
  | _, _ => 0

def unrank : List Nat → Nat → List Nat
  | [], _ => []
  | c :: cs, j => (j / cs.prod) % c :: unrank cs (j % cs.prod)

theorem rankOf_lt : ∀ (cs vs : List Nat), List.Forall₂ (fun v c => v < c) vs cs →
    rankOf cs vs < cs.prod
  | _, _, List.Forall₂.nil => Nat.one_pos
  | c :: cs, v :: vs, List.Forall₂.cons hv htail => by
    rw [rankOf, List.prod_cons]
    have ih := rankOf_lt cs vs htail
    calc v * cs.prod + rankOf cs vs < v * cs.prod + cs.prod :=
          Nat.add_lt_add_left ih _
      _ = (v + 1) * cs.prod := by ring
      _ ≤ c * cs.prod := Nat.mul_le_mul_right _ hv

theorem unrank_rankOf : ∀ (cs vs : List Nat),
    List.Forall₂ (fun v c => v < c) vs cs → unrank cs (rankOf cs vs) = vs
  | _, _, List.Forall₂.nil => rfl
  | c :: cs, v :: vs, List.Forall₂.cons hv htail => by
    have hr := rankOf_lt cs vs htail
    have hP : 0 < cs.prod := Nat.lt_of_le_of_lt (Nat.zero_le _) hr
    rw [unrank, rankOf]
    have hdiv : (v * cs.prod + rankOf cs vs) / cs.prod = v := by
      rw [Nat.add_comm, Nat.mul_comm, Nat.add_mul_div_left _ _ hP,
        Nat.div_eq_of_lt hr, Nat.zero_add]
    have hmod : (v * cs.prod + rankOf cs vs) % cs.prod = rankOf cs vs := by
      rw [Nat.add_comm, Nat.mul_comm, Nat.add_mul_mod_self_left,
        Nat.mod_eq_of_lt hr]
    rw [hdiv, hmod, Nat.mod_eq_of_lt hv, unrank_rankOf cs vs htail]

theorem rankOf_unrank : ∀ (cs : List Nat) (j : Nat), (∀ c ∈ cs, 0 < c) →
    j < cs.prod → rankOf cs (unrank cs j) = j
  | [], j, _, hj => by
    rw [List.prod_nil] at hj
    interval_cases j
    rfl
  | c :: cs, j, hpos, hj => by
    have hP : 0 < cs.prod :=
      List.prod_pos (fun x hx => hpos x (List.mem_cons_of_mem _ hx))
    rw [List.prod_cons] at hj
    have hdiv : j / cs.prod < c := (Nat.div_lt_iff_lt_mul hP).mpr hj
    rw [unrank, rankOf, Nat.mod_eq_of_lt hdiv,
      rankOf_unrank cs (j % cs.prod)
        (fun x hx => hpos x (List.mem_cons_of_mem _ hx)) (Nat.mod_lt _ hP),
      Nat.mul_comm, Nat.div_add_mod]

theorem unrank_forall₂ : ∀ (cs : List Nat) (j : Nat), (∀ c ∈ cs, 0 < c) →
    List.Forall₂ (fun v c => v < c) (unrank cs j) cs
  | [], _, _ => List.Forall₂.nil
  | c :: cs, j, hpos => by
    rw [unrank]
    exact List.Forall₂.cons
      (Nat.mod_lt _ (hpos c (List.mem_cons_self c cs)))
      (unrank_forall₂ cs _ (fun x hx => hpos x (List.mem_cons_of_mem _ hx)))

theorem unrank_length : ∀ (cs : List Nat) (j : Nat),
    (unrank cs j).length = cs.length
  | [], _ => rfl
  | _ :: cs, j => by rw [unrank, List.length_cons, List.length_cons,
      unrank_length cs]

/-- Strict lexicographic monotonicity of `unrank`: larger codes decode to
lexicographically larger tuples. -/
theorem unrank_tupLt : ∀ (cs : List Nat) (j j2 : Nat), (∀ c ∈ cs, 0 < c) →
    j < j2 → j2 < cs.prod → tupLt (unrank cs j) (unrank cs j2) = true
  | [], j, j2, _, hlt, hj2 => by
    rw [List.prod_nil] at hj2
    omega
  | c :: cs, j, j2, hpos, hlt, hj2 => by
    have hP : 0 < cs.prod :=
      List.prod_pos (fun x hx => hpos x (List.mem_cons_of_mem _ hx))
    rw [List.prod_cons] at hj2
    have hd2 : j2 / cs.prod < c := (Nat.div_lt_iff_lt_mul hP).mpr hj2
    have hd1 : j / cs.prod ≤ j2 / cs.prod := Nat.div_le_div_right hlt.le
    rw [unrank, unrank, tupLt]
    rcases Nat.lt_or_ge (j / cs.prod) (j2 / cs.prod) with hq | hq
    · rw [Nat.mod_eq_of_lt (lt_of_le_of_lt hd1 hd2), Nat.mod_eq_of_lt hd2,
        if_pos hq]
    · have hqeq : j / cs.prod = j2 / cs.prod := le_antisymm hd1 hq
      rw [Nat.mod_eq_of_lt (hqeq ▸ hd2), Nat.mod_eq_of_lt hd2, hqeq,
        if_neg (lt_irrefl _), if_neg (lt_irrefl _)]
      refine unrank_tupLt cs _ _
        (fun x hx => hpos x (List.mem_cons_of_mem _ hx)) ?_ (Nat.mod_lt _ hP)
      have e1 := Nat.div_add_mod j cs.prod
      have e2 := Nat.div_add_mod j2 cs.prod
      rw [hqeq] at e1
      omega

/-- Dividing out a multiple of the stride before taking the component does
not change it: the key step relating a tail `unrank` to global indexing. -/
theorem mod_div_mod_eq (j P s m : Nat) (hdvd : s * m ∣ P) (hs : 0 < s) :
    j % P / s % m = j / s % m := by
  obtain ⟨t, ht⟩ := hdvd
  rcases Nat.eq_zero_or_pos P with hP | hP
  · rw [hP, Nat.mod_zero]
  have e1 : j = j % P + s * (m * t * (j / P)) := by
    calc j = P * (j / P) + j % P := (Nat.div_add_mod j P).symm
      _ = j % P + s * (m * t * (j / P)) := by rw [ht]; ring
  conv_rhs => rw [e1]
  rw [Nat.add_mul_div_left _ _ hs, Nat.mul_assoc m t, Nat.add_mul_mod_self_left]

theorem unrank_getD : ∀ (cs : List Nat) (j f : Nat), f < cs.length →
    (∀ c ∈ cs, 0 < c) →
    (unrank cs j).getD f 0 = j / (cs.drop (f + 1)).prod % cs.getD f 1
  | c :: cs, j, 0, _, _ => by
    rw [unrank, List.getD_cons_zero, List.getD_cons_zero, List.drop_one,
      List.tail_cons]
  | c :: cs, j, f + 1, hf, hpos => by
    have hflt : f < cs.length := by simpa using hf
    rw [unrank, List.getD_cons_succ, List.getD_cons_succ,
      unrank_getD cs _ f hflt
        (fun x hx => hpos x (List.mem_cons_of_mem _ hx))]
    have hdrop : (c :: cs).drop (f + 2) = cs.drop (f + 1) := rfl
    rw [hdrop, List.getD_eq_getElem _ _ hflt]
    have hstep : cs.drop f = cs[f] :: cs.drop (f + 1) :=
      List.drop_eq_getElem_cons hflt
    have hdvd : (cs.drop (f + 1)).prod * cs[f] ∣ cs.prod := by
      conv_rhs => rw [← List.take_append_drop f cs]
      rw [List.prod_append, hstep, List.prod_cons]
      exact Dvd.intro ((cs.take f).prod * 1) (by ring)
    have hs : 0 < (cs.drop (f + 1)).prod :=
      List.prod_pos (fun x hx => hpos x
        (List.mem_cons_of_mem _ (List.mem_of_mem_drop hx)))
    exact mod_div_mod_eq j cs.prod _ cs[f] hdvd hs

/-- The positional formula as the specification writes it: each value
scaled by the product of the cardinalities of the later variables. -/
theorem rankOf_eq_sum : ∀ (cs vs : List Nat), cs.length = vs.length →
    rankOf cs vs = ∑ f ∈ Finset.range cs.length,
      vs.getD f 0 * (cs.drop (f + 1)).prod
  | [], [], _ => rfl
  | c :: cs, v :: vs, hlen => by
    rw [rankOf, List.length_cons, Finset.sum_range_succ',
      rankOf_eq_sum cs vs (by simpa using hlen)]
    simp only [List.getD_cons_succ, List.getD_cons_zero]
    have : (c :: cs).drop 1 = cs := rfl
    rw [this, Nat.add_comm]
    exact congrArg (fun z => z + v * cs.prod)
      (Finset.sum_congr rfl (fun f _ => rfl))

/-! ## The back-to-front code loop -/

theorem mixedRadixLoop_snd_some (w : Nat) :
    ∀ (rv : List (List Nat × Nat)) (cds : List Nat) (nc : Nat), 0 < nc →
      (∀ p ∈ rv, 0 < p.2) → nc * (rv.map Prod.snd).prod < 2 ^ w →
      (mixedRadixLoop w rv cds nc).2 = some (nc * (rv.map Prod.snd).prod)
  | [], cds, nc, _, _, _ => by rw [mixedRadixLoop]; simp
  | (vals, card) :: rest, cds, nc, hnc, hpos, hbound => by
    have hrestpos : ∀ p ∈ rest, 0 < p.2 :=
      fun p hp => hpos p (List.mem_cons_of_mem _ hp)
    have hrp : 0 < (rest.map Prod.snd).prod := List.prod_pos (by
      intro x hx
      obtain ⟨p, hp, rfl⟩ := List.mem_map.mp hx
      exact hrestpos p hp)
    have hassoc : nc * (((vals, card) :: rest).map Prod.snd).prod =
        nc * card * (rest.map Prod.snd).prod := by
      simp [Nat.mul_assoc]
    have hstep : nc * card < 2 ^ w := by
      rw [hassoc] at hbound
      calc nc * card = nc * card * 1 := (Nat.mul_one _).symm
        _ ≤ nc * card * (rest.map Prod.snd).prod := Nat.mul_le_mul_left _ hrp
        _ < 2 ^ w := hbound
    have hcardpos : 0 < card := hpos _ (List.mem_cons_self _ _)
    rw [mixedRadixLoop, checkedProduct, if_pos hstep]
    rw [mixedRadixLoop_snd_some w rest _ (nc * card)
      (Nat.mul_pos hnc hcardpos) hrestpos (by rw [← hassoc]; exact hbound),
      hassoc]

theorem mixedRadixLoop_snd_inv (w : Nat) :
    ∀ (rv : List (List Nat × Nat)) (cds : List Nat) (nc m : Nat),
      (mixedRadixLoop w rv cds nc).2 = some m →
      m = nc * (rv.map Prod.snd).prod ∧ (rv ≠ [] → m < 2 ^ w)
  | [], cds, nc, m, h => by
    rw [mixedRadixLoop] at h
    simp at h
    exact ⟨by simp [h.symm], fun hne => absurd rfl hne⟩
  | (vals, card) :: rest, cds, nc, m, h => by
    rw [mixedRadixLoop] at h
    rcases hcp : checkedProduct w nc card with _ | next
    · rw [hcp] at h
      simp at h
    · rw [hcp] at h
      simp only [] at h
      have hnext : next = nc * card ∧ nc * card < 2 ^ w := by
        rw [checkedProduct] at hcp
        by_cases hb : nc * card < 2 ^ w
        · rw [if_pos hb] at hcp
          exact ⟨(Option.some.injEq _ _ ▸ hcp).symm ▸ rfl, hb⟩
        · rw [if_neg hb] at hcp
          cases hcp
      obtain ⟨rfl, hlt⟩ := hnext
      obtain ⟨hm, hbound⟩ := mixedRadixLoop_snd_inv w rest _ _ m h
      constructor
      · rw [hm]
        simp [Nat.mul_assoc]
      · intro _
        rcases List.eq_nil_or_concat rest with rfl | hne
        · rw [hm]
          simpa using hlt
        · obtain ⟨l2, b, rfl⟩ := hne
          exact hbound (by simp)

/-- Accumulated contribution of the variables processed by the code loop,
given the running base at entry. -/
def revSum : List (List Nat × Nat) → Nat → Nat → Nat
  | [], _, _ => 0
  | (vals, card) :: rest, nc, i => vals.getD i 0 * nc + revSum rest (nc * card) i

theorem mixedRadixLoop_codes (w : Nat) :
    ∀ (rv : List (List Nat × Nat)) (cds : List Nat) (nc : Nat), 0 < nc →
      (∀ p ∈ rv, 0 < p.2) → nc * (rv.map Prod.snd).prod < 2 ^ w →
      (∀ p ∈ rv, p.1.length = cds.length) →
      (∀ p ∈ rv, ∀ i, i < cds.length → p.1.getD i 0 < p.2) →
      (∀ x ∈ cds, x < nc) →
      (mixedRadixLoop w rv cds nc).1.length = cds.length ∧
      (∀ i, i < cds.length → (mixedRadixLoop w rv cds nc).1.getD i 0 =
        revSum rv nc i + cds.getD i 0) ∧
      (∀ x ∈ (mixedRadixLoop w rv cds nc).1, x < nc * (rv.map Prod.snd).prod)
  | [], cds, nc, _, _, _, _, _, hcds => by
    refine ⟨rfl, fun i _ => by rw [revSum, Nat.zero_add]; rfl, fun x hx => ?_⟩
    simpa using hcds x hx
  | (vals, card) :: rest, cds, nc, hnc, hpos, hbound, hlens, hvals, hcds => by
    have hrestpos : ∀ p ∈ rest, 0 < p.2 :=
      fun p hp => hpos p (List.mem_cons_of_mem _ hp)
    have hrp : 0 < (rest.map Prod.snd).prod := List.prod_pos (by
      intro x hx
      obtain ⟨p, hp, rfl⟩ := List.mem_map.mp hx
      exact hrestpos p hp)
    have hassoc : nc * (((vals, card) :: rest).map Prod.snd).prod =
        nc * card * (rest.map Prod.snd).prod := by
      simp [Nat.mul_assoc]
    have hstep : nc * card < 2 ^ w := by
      rw [hassoc] at hbound
      calc nc * card = nc * card * 1 := (Nat.mul_one _).symm
        _ ≤ nc * card * (rest.map Prod.snd).prod := Nat.mul_le_mul_left _ hrp
        _ < 2 ^ w := hbound
    have hcardpos : 0 < card := hpos _ (List.mem_cons_self _ _)
    have hvlen : vals.length = cds.length :=
      hlens _ (List.mem_cons_self _ _)
    have hlen2 : (cds.zipWith (fun c v => wrap w (c + nc * v)) vals).length =
        cds.length := by
      rw [List.length_zipWith, hvlen]
      simp
    have hget2 : ∀ i, i < cds.length →
        (cds.zipWith (fun c v => wrap w (c + nc * v)) vals).getD i 0 =
          cds.getD i 0 + nc * vals.getD i 0 := by
      intro i hi
      have hi2 : i < (cds.zipWith (fun c v => wrap w (c + nc * v)) vals).length := by
        rw [hlen2]; exact hi
      rw [List.getD_eq_getElem _ _ hi2]
      rw [List.getElem_zipWith, wrap]
      have hv : vals.getD i 0 < card := hvals _ (List.mem_cons_self _ _) i hi
      have hc : cds.getD i 0 < nc := hcds _ (by
        rw [List.getD_eq_getElem _ _ hi]
        exact List.getElem_mem hi)
      have hsmall : cds[i] + nc * vals[i] < 2 ^ w := by
        rw [← List.getD_eq_getElem cds 0 hi,
          ← List.getD_eq_getElem vals 0 (by rw [hvlen]; exact hi)]
        calc cds.getD i 0 + nc * vals.getD i 0
            < nc + nc * vals.getD i 0 := by omega
          _ = nc * (vals.getD i 0 + 1) := by ring
          _ ≤ nc * card := Nat.mul_le_mul_left _ hv
          _ < 2 ^ w := hstep
      rw [Nat.mod_eq_of_lt hsmall, List.getD_eq_getElem _ _ hi,
        List.getD_eq_getElem _ _ (by rw [hvlen]; exact hi)]
    have hmem2 : ∀ x ∈ cds.zipWith (fun c v => wrap w (c + nc * v)) vals,
        x < nc * card := by
      intro x hx
      obtain ⟨i, hi, rfl⟩ := List.mem_iff_getElem.mp hx
      have hi := hlen2 ▸ hi
      rw [← List.getD_eq_getElem _ 0, hget2 i hi]
      have hv : vals.getD i 0 < card := hvals _ (List.mem_cons_self _ _) i hi
      have hc : cds.getD i 0 < nc := hcds _ (by
        rw [List.getD_eq_getElem _ _ hi]
        exact List.getElem_mem hi)
      calc cds.getD i 0 + nc * vals.getD i 0
          < nc + nc * vals.getD i 0 := by omega
        _ = nc * (vals.getD i 0 + 1) := by ring
        _ ≤ nc * card := Nat.mul_le_mul_left _ hv
    have ih := mixedRadixLoop_codes w rest
      (cds.zipWith (fun c v => wrap w (c + nc * v)) vals) (nc * card)
      (Nat.mul_pos hnc hcardpos) hrestpos
      (by rw [← hassoc]; exact hbound)
      (fun p hp => by rw [hlen2]; exact hlens p (List.mem_cons_of_mem _ hp))
      (fun p hp i hi => hvals p (List.mem_cons_of_mem _ hp) i (by
        rw [← hlen2]; exact hi))
      hmem2
    rw [mixedRadixLoop, checkedProduct, if_pos hstep]
    refine ⟨by rw [ih.1, hlen2], fun i hi => ?_, fun x hx => ?_⟩
    · rw [ih.2.1 i (by rw [hlen2]; exact hi), hget2 i hi, revSum]
      ring
    · rw [hassoc]
      exact ih.2.2 x hx

theorem revSum_append :
    ∀ (l1 l2 : List (List Nat × Nat)) (nc i : Nat),
      revSum (l1 ++ l2) nc i =
        revSum l1 nc i + revSum l2 (nc * (l1.map Prod.snd).prod) i
  | [], l2, nc, i => by rw [List.nil_append, revSum, Nat.zero_add]; simp
  | (vals, card) :: rest, l2, nc, i => by
    rw [List.cons_append, revSum, revSum,
      revSum_append rest l2 (nc * card) i, Nat.add_assoc]
    have : nc * card * (rest.map Prod.snd).prod =
        nc * (((vals, card) :: rest).map Prod.snd).prod := by
      simp [Nat.mul_assoc]
    rw [this]

/-- The total accumulated code equals the mixed-radix rank of the
observation tuple, where the variables are listed front to back. -/
theorem revSum_rankOf :
    ∀ (vars : List (List Nat × Nat)) (pl : List Nat × Nat) (i : Nat),
      revSum vars.reverse pl.2 i + pl.1.getD i 0 =
        rankOf ((vars ++ [pl]).map Prod.snd)
          ((vars ++ [pl]).map (fun p => p.1.getD i 0))
  | [], pl, i => by
    simp [revSum, rankOf]
  | p :: vars, pl, i => by
    rw [List.reverse_cons, revSum_append, revSum, revSum]
    have hrev : (vars.reverse.map Prod.snd).prod = (vars.map Prod.snd).prod := by
      rw [List.map_reverse, List.prod_reverse]
    rw [List.cons_append, List.map_cons, List.map_cons, rankOf]
    have hprod : ((vars ++ [pl]).map Prod.snd).prod =
        (vars.map Prod.snd).prod * pl.2 := by
      rw [List.map_append, List.prod_append]
      simp
    rw [hprod, ← revSum_rankOf vars pl i, hrev]
    ring

/-! ## The table-construction loop -/

theorem flatMap_replicate_one (l : List Nat) :
    l.flatMap (fun x => List.replicate 1 x) = l := by
  induction l with
  | nil => rfl
  | cons x xs ih => rw [List.flatMap_cons, ih]; rfl

theorem flatMap_replicate_length (l : List Nat) (inner : Nat) :
    (l.flatMap (fun x => List.replicate inner x)).length = l.length * inner := by
  rw [List.length_flatMap]
  have : List.map (List.length ∘ fun x => List.replicate inner x) l =
      List.replicate l.length inner := by
    rw [show (List.length ∘ fun x : Nat => List.replicate inner x) =
      Function.const Nat inner by
        funext x
        simp
      ]
    exact List.map_const l inner
  rw [this, List.sum_replicate, smul_eq_mul]

theorem flatMap_replicate_getD (inner : Nat) (hpos : 0 < inner) :
    ∀ (l : List Nat) (m : Nat), m < l.length * inner →
      (l.flatMap (fun x => List.replicate inner x)).getD m 0 = l.getD (m / inner) 0
  | [], m, hm => by simp at hm
  | x :: xs, m, hm => by
    rw [List.flatMap_cons]
    by_cases hsplit : m < inner
    · rw [List.getD_append _ _ _ _ (by simpa using hsplit),
        List.getD_eq_getElem _ _ (by simpa using hsplit),
        List.getElem_replicate, Nat.div_eq_of_lt hsplit, List.getD_cons_zero]
    · push_neg at hsplit
      rw [List.getD_append_right _ _ _ _ (by simpa using hsplit),
        List.length_replicate,
        flatMap_replicate_getD inner hpos xs (m - inner) (by
          rw [List.length_cons] at hm
          have : (xs.length + 1) * inner = xs.length * inner + inner := by ring
          omega)]
      have hq : m / inner = (m - inner) / inner + 1 :=
        Nat.div_eq_sub_div hpos hsplit
      rw [hq, List.getD_cons_succ]

theorem flatten_replicate_length (t : Nat) (blk : List Nat) :
    ((List.replicate t blk).flatten).length = t * blk.length := by
  rw [List.length_flatten, List.map_replicate, List.sum_replicate, smul_eq_mul]

theorem flatten_replicate_getD (blk : List Nat) (hpos : 0 < blk.length) :
    ∀ (t m : Nat), m < t * blk.length →
      ((List.replicate t blk).flatten).getD m 0 = blk.getD (m % blk.length) 0
  | 0, m, hm => by simp at hm
  | t + 1, m, hm => by
    rw [List.replicate_succ, List.flatten_cons]
    by_cases hsplit : m < blk.length
    · rw [List.getD_append _ _ _ _ hsplit, Nat.mod_eq_of_lt hsplit]
    · push_neg at hsplit
      rw [List.getD_append_right _ _ _ _ hsplit,
        flatten_replicate_getD blk hpos t (m - blk.length) (by
          have : (t + 1) * blk.length = t * blk.length + blk.length := by ring
          omega),
        ← Nat.mod_eq_sub_mod hsplit]

theorem flatten_replicate_head (t : Nat) (blk : List Nat) (ht : 0 < t) :
    (List.replicate t blk).flatten =
      blk ++ (List.replicate (t - 1) blk).flatten := by
  obtain ⟨u, rfl⟩ : ∃ u, t = u + 1 := ⟨t - 1, by omega⟩
  rw [List.replicate_succ, List.flatten_cons]
  simp

/-- The column built for one variable: run-length blocks of the levels,
cycled; entry `j` is `j / inner % c`. -/
theorem column_formula (inner c t : Nat) (hinner : 0 < inner) (hc : 0 < c) :
    (List.replicate t ((List.range c).flatMap
        (fun x => List.replicate inner x))).flatten =
      (List.range (inner * c * t)).map (fun j => j / inner % c) := by
  set blk := (List.range c).flatMap (fun x => List.replicate inner x) with hblk
  have hlen : blk.length = c * inner := by
    rw [hblk, flatMap_replicate_length, List.length_range]
  have hlenpos : 0 < blk.length := by
    rw [hlen]
    exact Nat.mul_pos hc hinner
  refine List.ext_getElem ?_ ?_
  · rw [flatten_replicate_length, hlen, List.length_map, List.length_range]
    ring
  · intro j hj1 hj2
    have hjN : j < inner * c * t := by
      rw [flatten_replicate_length, hlen] at hj1
      calc j < t * (c * inner) := hj1
        _ = inner * c * t := by ring
    have hjt : j < t * blk.length := by rw [hlen]; calc
      j < inner * c * t := hjN
      _ = t * (c * inner) := by ring
    have hm : j % blk.length < c * inner := by
      calc j % blk.length < blk.length := Nat.mod_lt _ hlenpos
        _ = c * inner := hlen
    have hdivlt : j % blk.length / inner < c :=
      (Nat.div_lt_iff_lt_mul hinner).mpr hm
    rw [← List.getD_eq_getElem _ 0 hj1,
      flatten_replicate_getD blk hlenpos t j hjt]
    conv_lhs => rw [hblk]
    rw [flatMap_replicate_getD inner hinner _ _
        (by rw [List.length_range]; exact hm),
      List.getD_eq_getElem _ _ (by rw [List.length_range]; exact hdivlt),
      List.getElem_range, List.getElem_map, List.getElem_range,
      hlen, Nat.mul_comm c inner, Nat.mod_mul_right_div_self]

/-- What the table loop produces, stated in the processing order: the
column for each cardinality is appended after those of the variables
processed later (which stand earlier in the returned table). -/
def expectedCols (N : Nat) : List Nat → Nat → List (List Nat)
  | [], _ => []
  | c :: rest, inner => expectedCols N rest (inner * c) ++
      [(List.range N).map (fun j => j / inner % c)]

theorem tableLoop_eq (w : Nat) :
    ∀ (csr : List Nat) (inner : Nat), (∀ c ∈ csr, 0 < c) → 0 < inner →
      inner * csr.prod < 2 ^ w →
      tableLoop w csr inner csr.prod =
        some (expectedCols (inner * csr.prod) csr inner)
  | [], inner, _, _, _ => by rw [tableLoop, expectedCols]
  | c :: rest, inner, hpos, hinner, hbound => by
    have hc : 0 < c := hpos _ (List.mem_cons_self _ _)
    have hrestpos : ∀ x ∈ rest, 0 < x :=
      fun x hx => hpos x (List.mem_cons_of_mem _ hx)
    have hP : 0 < rest.prod := List.prod_pos hrestpos
    have hprodc : (c :: rest).prod = c * rest.prod := List.prod_cons
    have hicN : inner * c ≤ inner * (c :: rest).prod := by
      rw [hprodc]
      calc inner * c = inner * c * 1 := (Nat.mul_one _).symm
        _ ≤ inner * c * rest.prod := Nat.mul_le_mul_left _ hP
        _ = inner * (c * rest.prod) := by ring
    have hic : inner * c < 2 ^ w := lt_of_le_of_lt hicN hbound
    have hwrap : wrap w (inner * c) = inner * c := Nat.mod_eq_of_lt hic
    rw [tableLoop]
    have hblock : (if inner = 1 then some (List.range (wrap w (inner * c)))
        else if inner * c < 2 ^ w then
          some ((List.range c).flatMap (fun l => List.replicate inner l))
        else none) =
        some ((List.range c).flatMap (fun l => List.replicate inner l)) := by
      by_cases h1 : inner = 1
      · rw [if_pos h1, hwrap, h1, Nat.one_mul, flatMap_replicate_one]
      · rw [if_neg h1, if_pos hic]
    rw [hblock]
    simp only []
    rw [if_neg (Nat.pos_iff_ne_zero.mp hc), hprodc,
      Nat.mul_div_cancel_left _ hc]
    have hcol : (List.range c).flatMap (fun l => List.replicate inner l) ++
        (List.replicate (rest.prod - 1)
          ((List.range c).flatMap (fun l => List.replicate inner l))).flatten =
        (List.range (inner * (c * rest.prod))).map (fun j => j / inner % c) := by
      rw [← flatten_replicate_head _ _ hP, column_formula inner c rest.prod hinner hc,
        Nat.mul_assoc]
    have hrec := tableLoop_eq w rest (inner * c) hrestpos
      (Nat.mul_pos hinner hc)
      (by rw [Nat.mul_assoc, ← hprodc]; exact hbound)
    rw [hwrap, hrec]
    simp only []
    rw [expectedCols, hcol]
    have : inner * c * rest.prod = inner * (c * rest.prod) := by ring
    rw [this]

theorem expectedCols_length (N : Nat) :
    ∀ (csr : List Nat) (inner : Nat),
      (expectedCols N csr inner).length = csr.length
  | [], _ => rfl
  | c :: rest, inner => by
    rw [expectedCols, List.length_append, expectedCols_length N rest]
    simp

theorem expectedCols_append (N : Nat) :
    ∀ (l1 l2 : List Nat) (inner : Nat),
      expectedCols N (l1 ++ l2) inner =
        expectedCols N l2 (inner * l1.prod) ++ expectedCols N l1 inner
  | [], l2, inner => by
    rw [List.nil_append, expectedCols, List.append_nil, List.prod_nil,
      Nat.mul_one]
  | c :: rest, l2, inner => by
    rw [List.cons_append, expectedCols, expectedCols,
      expectedCols_append N rest l2 (inner * c), List.prod_cons, ← List.append_assoc]
    have : inner * c * rest.prod = inner * (c * rest.prod) := by ring
    rw [this]

theorem expectedCols_reverse_getD (N : Nat) :
    ∀ (cs : List Nat) (inner f : Nat), f < cs.length →
      (expectedCols N cs.reverse inner).getD f [] =
        (List.range N).map
          (fun j => j / (inner * (cs.drop (f + 1)).prod) % cs.getD f 1)
  | [], _, f, hf => by simp at hf
  | c :: cs, inner, f, hf => by
    rw [List.reverse_cons, expectedCols_append,
      show expectedCols N [c] (inner * cs.reverse.prod) =
        [(List.range N).map
          (fun j => j / (inner * cs.reverse.prod) % c)] from rfl,
      List.prod_reverse]
    cases f with
    | zero =>
      rw [List.getD_append _ _ _ _ (by simp), List.getD_cons_zero,
        List.getD_cons_zero]
      rfl
    | succ f =>
      rw [List.getD_append_right _ _ _ _ (by simp), List.getD_cons_succ]
      have : f + 1 - [(List.range N).map
          (fun j => j / (inner * cs.prod) % c)].length = f := by simp
      rw [this, expectedCols_reverse_getD N cs inner f (by simpa using hf)]
      rfl

/-! ## Putting the full combiner together -/

theorem inputs_decomp (inputs : List (List Nat × Nat)) (hne : inputs ≠ []) :
    inputs.dropLast ++ [inputs.getLastD ([], 0)] = inputs := by
  have h1 : inputs.getLastD ([], 0) = inputs.getLast hne := by
    rw [List.getLastD_eq_getLast?, List.getLast?_eq_getLast inputs hne]
    rfl
  rw [h1]
  exact List.dropLast_append_getLast hne

theorem last_card_le_prod (inputs : List (List Nat × Nat))
    (hne : inputs ≠ []) (hpos : ∀ p ∈ inputs, 0 < p.2) :
    (inputs.getLastD ([], 0)).2 ≤ (inputs.map Prod.snd).prod := by
  have hdec := inputs_decomp inputs hne
  conv_rhs => rw [← hdec]
  rw [List.map_append, List.prod_append]
  have hA : 0 < (inputs.dropLast.map Prod.snd).prod := List.prod_pos (by
    intro x hx
    obtain ⟨p, hp, rfl⟩ := List.mem_map.mp hx
    exact hpos p (List.mem_of_mem_dropLast hp))
  calc (inputs.getLastD ([], 0)).2
      = 1 * (inputs.getLastD ([], 0)).2 := (Nat.one_mul _).symm
    _ ≤ (inputs.dropLast.map Prod.snd).prod * (inputs.getLastD ([], 0)).2 :=
        Nat.mul_le_mul_right _ hA
    _ = (inputs.dropLast.map Prod.snd).prod *
        ([inputs.getLastD ([], 0)].map Prod.snd).prod := by simp

theorem unused_prod_decomp (inputs : List (List Nat × Nat)) (hne : inputs ≠ []) :
    (inputs.getLastD ([], 0)).2 *
        ((inputs.dropLast.reverse.map Prod.snd)).prod =
      (inputs.map Prod.snd).prod := by
  conv_rhs => rw [← inputs_decomp inputs hne]
  rw [List.map_reverse, List.prod_reverse, List.map_append, List.prod_append]
  simp [Nat.mul_comm]

/-- The code phase of the general path succeeds with the full cardinality
product when that product is representable and all cardinalities are
positive. -/
theorem combine_unused_run_snd (w n : Nat) (inputs : List (List Nat × Nat))
    (h2 : 2 ≤ inputs.length) (hpos : ∀ p ∈ inputs, 0 < p.2)
    (hrepr : (inputs.map Prod.snd).prod < 2 ^ w) :
    (mixedRadixLoop w inputs.dropLast.reverse
        (((inputs.getLastD ([], 0)).1.take n).map (wrap w))
        (wrap w (inputs.getLastD ([], 0)).2)).2 =
      some ((inputs.map Prod.snd).prod) := by
  have hne : inputs ≠ [] := by
    intro h
    rw [h] at h2
    simp at h2
  have hlast : (inputs.getLastD ([], 0)).2 ≤ (inputs.map Prod.snd).prod :=
    last_card_le_prod inputs hne hpos
  have hlastpos : 0 < (inputs.getLastD ([], 0)).2 := by
    refine hpos _ ?_
    have h1 : inputs.getLastD ([], 0) = inputs.getLast hne := by
      rw [List.getLastD_eq_getLast?, List.getLast?_eq_getLast inputs hne]
      rfl
    rw [h1]
    exact List.getLast_mem hne
  have hwrap : wrap w (inputs.getLastD ([], 0)).2 =
      (inputs.getLastD ([], 0)).2 :=
    Nat.mod_eq_of_lt (lt_of_le_of_lt hlast hrepr)
  rw [hwrap, mixedRadixLoop_snd_some w _ _ _ hlastpos
    (fun p hp => hpos p (List.mem_of_mem_dropLast (List.mem_reverse.mp hp)))
    (by rw [unused_prod_decomp inputs hne]; exact hrepr),
    unused_prod_decomp inputs hne]

/-- The table returned by the general path of the full combiner: one column
per variable, each of length `Π cardinality`, whose entry `j` is the
component of `unrank` at code `j`. -/
theorem combine_unused_table (w n : Nat) (inputs : List (List Nat × Nat))
    (codes0 : List Nat) (h2 : 2 ≤ inputs.length)
    (hpos : ∀ p ∈ inputs, 0 < p.2)
    (hrepr : (inputs.map Prod.snd).prod < 2 ^ w) :
    (combine_to_factor_unused w n inputs codes0).2 =
      some ((List.range inputs.length).map (fun f =>
        (List.range ((inputs.map Prod.snd).prod)).map
          (fun j => (unrank (inputs.map Prod.snd) j).getD f 0))) := by
  have h0 : ¬ inputs.length = 0 := by omega
  have h1 : ¬ inputs.length = 1 := by omega
  rw [combine_to_factor_unused, if_neg h0, if_neg h1]
  simp only []
  rw [combine_unused_run_snd w n inputs h2 hpos hrepr]
  simp only []
  have hrevpos : ∀ c ∈ ((inputs.map Prod.snd).reverse), 0 < c := by
    intro c hc
    obtain ⟨p, hp, rfl⟩ := List.mem_map.mp (List.mem_reverse.mp hc)
    exact hpos p hp
  have hrevprod : ((inputs.map Prod.snd).reverse).prod =
      (inputs.map Prod.snd).prod := List.prod_reverse _
  have ht := tableLoop_eq w ((inputs.map Prod.snd).reverse) 1 hrevpos
    Nat.one_pos (by rw [Nat.one_mul, hrevprod]; exact hrepr)
  rw [hrevprod] at ht
  rw [ht]
  congr 1
  set cs := inputs.map Prod.snd with hcs
  have hlen1 : (expectedCols (1 * cs.prod) cs.reverse 1).length = cs.length := by
    rw [expectedCols_length, List.length_reverse]
  refine List.ext_getElem ?_ ?_
  · rw [hlen1, hcs]
    simp
  · intro f hf1 hf2
    have hflt : f < cs.length := by rw [← hlen1]; exact hf1
    rw [← List.getD_eq_getElem _ [] hf1,
      expectedCols_reverse_getD (1 * cs.prod) cs 1 f hflt, List.getElem_map,
      List.getElem_range]
    have hN : 1 * cs.prod = cs.prod := Nat.one_mul _
    rw [hN]
    refine List.map_congr_left (fun j hj => ?_)
    rw [unrank_getD cs j f hflt (fun c hc => by
        obtain ⟨p, hp, rfl⟩ := List.mem_map.mp (hcs ▸ hc)
        exact hpos p hp),
      Nat.one_mul]

/-- The codes written by the general path of the full combiner are the
mixed-radix ranks of the observation tuples. -/
theorem combine_unused_codes (w n : Nat) (inputs : List (List Nat × Nat))
    (codes0 : List Nat) (h2 : 2 ≤ inputs.length)
    (hlens : ∀ p ∈ inputs, p.1.length = n)
    (hvals : ∀ p ∈ inputs, ∀ i, i < n → p.1.getD i 0 < p.2)
    (hpos : ∀ p ∈ inputs, 0 < p.2)
    (hrepr : (inputs.map Prod.snd).prod < 2 ^ w) :
    ∀ i, i < n → (combine_to_factor_unused w n inputs codes0).1.getD i 0 =
      rankOf (inputs.map Prod.snd) (inputs.map (fun p => p.1.getD i 0)) := by
  intro i hi
  have hne : inputs ≠ [] := by
    intro h
    rw [h] at h2
    simp at h2
  have hlastmem : inputs.getLastD ([], 0) ∈ inputs := by
    have h1 : inputs.getLastD ([], 0) = inputs.getLast hne := by
      rw [List.getLastD_eq_getLast?, List.getLast?_eq_getLast inputs hne]
      rfl
    rw [h1]
    exact List.getLast_mem hne
  have hlast : (inputs.getLastD ([], 0)).2 ≤ (inputs.map Prod.snd).prod :=
    last_card_le_prod inputs hne hpos
  have hlastpos : 0 < (inputs.getLastD ([], 0)).2 := hpos _ hlastmem
  have hwrap : wrap w (inputs.getLastD ([], 0)).2 =
      (inputs.getLastD ([], 0)).2 :=
    Nat.mod_eq_of_lt (lt_of_le_of_lt hlast hrepr)
  have hlastlen : (inputs.getLastD ([], 0)).1.length = n := hlens _ hlastmem
  have htake : (inputs.getLastD ([], 0)).1.take n =
      (inputs.getLastD ([], 0)).1 := by
    rw [List.take_of_length_le (by rw [hlastlen])]
  have hmapid : ((inputs.getLastD ([], 0)).1.take n).map (wrap w) =
      (inputs.getLastD ([], 0)).1 := by
    rw [htake]
    have : ∀ v ∈ (inputs.getLastD ([], 0)).1, wrap w v = v := by
      intro v hv
      obtain ⟨j, hj, rfl⟩ := List.mem_iff_getElem.mp hv
      have hjn : j < n := by rw [← hlastlen]; exact hj
      have := hvals _ hlastmem j hjn
      rw [List.getD_eq_getElem _ _ hj] at this
      exact Nat.mod_eq_of_lt (lt_of_lt_of_le (lt_of_lt_of_le this hlast)
        (le_of_lt hrepr))
    calc (inputs.getLastD ([], 0)).1.map (wrap w)
        = (inputs.getLastD ([], 0)).1.map id := List.map_congr_left this
      _ = (inputs.getLastD ([], 0)).1 := List.map_id _
  have hcodes := mixedRadixLoop_codes w inputs.dropLast.reverse
    (inputs.getLastD ([], 0)).1 (inputs.getLastD ([], 0)).2
    hlastpos
    (fun p hp => hpos p (List.mem_of_mem_dropLast (List.mem_reverse.mp hp)))
    (by rw [unused_prod_decomp inputs hne]; exact hrepr)
    (fun p hp => by
      rw [hlastlen]
      exact hlens p (List.mem_of_mem_dropLast (List.mem_reverse.mp hp)))
    (fun p hp j hj => hvals p
      (List.mem_of_mem_dropLast (List.mem_reverse.mp hp)) j
      (by rw [← hlastlen]; exact hj))
    (fun x hx => by
      obtain ⟨j, hj, rfl⟩ := List.mem_iff_getElem.mp hx
      have hjn : j < n := by rw [← hlastlen]; exact hj
      have := hvals _ hlastmem j hjn
      rw [List.getD_eq_getElem _ _ hj] at this
      exact this)
  have h0 : ¬ inputs.length = 0 := by omega
  have h1 : ¬ inputs.length = 1 := by omega
  rw [combine_to_factor_unused, if_neg h0, if_neg h1]
  simp only []
  rw [hmapid, hwrap]
  rcases hrun : (mixedRadixLoop w inputs.dropLast.reverse
      (inputs.getLastD ([], 0)).1 (inputs.getLastD ([], 0)).2).2 with _ | N
  · simp only []
    rw [List.getD_append _ _ _ _ (by
        rw [hcodes.1, hlastlen]
        exact hi),
      hcodes.2.1 i (by rw [hlastlen]; exact hi)]
    rw [revSum_rankOf inputs.dropLast (inputs.getLastD ([], 0)) i,
      inputs_decomp inputs hne]
  · simp only []
    rw [List.getD_append _ _ _ _ (by
        rw [hcodes.1, hlastlen]
        exact hi),
      hcodes.2.1 i (by rw [hlastlen]; exact hi)]
    rw [revSum_rankOf inputs.dropLast (inputs.getLastD ([], 0)) i,
      inputs_decomp inputs hne]

/-! ## Round-trip, density and sortedness facts, per operation -/

theorem create_factor_levels_length [LinearOrder α] (w n : Nat) (input : List α) :
    (create_factor w n input).1.length =
      (distinctFirstSeen (input.take n)).length := by
  rw [create_factor_levels, List.length_map, coreSorted_length]

theorem create_factor_code_val [LinearOrder α] (w n : Nat) (input : List α)
    (hw : (create_factor w n input).1.length ≤ 2 ^ w)
    (i : Nat) (hi : i < n) (hi2 : i < input.length) :
    (create_factor w n input).2.getD i 0 =
      (create_factor w n input).1.indexOf input[i] := by
  have hw2 : (distinctFirstSeen (input.take n)).length ≤ 2 ^ w := by
    rw [← create_factor_levels_length w n input]
    exact hw
  have hitake : i < (input.take n).length := by
    rw [List.length_take]
    omega
  have := factorCore_codes_getD w pairLtb (input.take n) hw2 i hitake
  rw [List.getElem_take] at this
  rw [create_factor_levels]
  exact this

theorem create_factor_round_trip [LinearOrder α] (w n : Nat) (input : List α)
    (hw : (create_factor w n input).1.length ≤ 2 ^ w)
    (i : Nat) (hi : i < n) (hi2 : i < input.length) (d : α) :
    (create_factor w n input).1.getD
        ((create_factor w n input).2.getD i 0) d = input.getD i d := by
  rw [create_factor_code_val w n input hw i hi hi2]
  have hmem : input[i] ∈ (create_factor w n input).1 := by
    rw [create_factor_levels]
    refine coreSorted_fst_mem w pairLtb (input.take n) _ ?_
    rw [List.mem_iff_getElem]
    exact ⟨i, by rw [List.length_take]; omega, List.getElem_take input⟩
  have hlt : (create_factor w n input).1.indexOf input[i] <
      (create_factor w n input).1.length := List.indexOf_lt_length.mpr hmem
  rw [List.getD_eq_getElem _ _ hlt, List.getElem_indexOf hlt,
    List.getD_eq_getElem _ _ hi2]

theorem create_factor_density [LinearOrder α] (w n : Nat) (input : List α)
    (hlen : input.length = n)
    (hw : (create_factor w n input).1.length ≤ 2 ^ w)
    (c : Nat) (hc : c < (create_factor w n input).1.length) :
    ∃ i, i < n ∧ (create_factor w n input).2.getD i 0 = c := by
  have hmem : (create_factor w n input).1[c] ∈ input.take n := by
    have hsub : ∀ y ∈ (create_factor w n input).1, y ∈ input.take n := by
      intro y hy
      rw [create_factor_levels] at hy
      obtain ⟨p, hp, hpe⟩ := List.mem_map.mp hy
      have h3 : p.1 ∈ input.take n :=
        (distinctFirstSeen_mem _ _).mp (coreSorted_fst_mem_dts w _ _ p hp)
      rwa [hpe] at h3
    exact hsub _ (List.getElem_mem hc)
  obtain ⟨i, hit, hie⟩ := List.mem_iff_getElem.mp hmem
  have hin : i < n := by
    rw [List.length_take] at hit
    omega
  have hii : i < input.length := by
    rw [List.length_take] at hit
    omega
  refine ⟨i, hin, ?_⟩
  rw [create_factor_code_val w n input hw i hin hii]
  have : input[i] = (create_factor w n input).1[c] := by
    rw [← hie, List.getElem_take]
  rw [this, List.indexOf_getElem (create_factor_levels_nodup w n input)]

theorem create_factor_strict [LinearOrder α] (w n : Nat) (input : List α) :
    (create_factor w n input).1.Sorted (· < ·) :=
  (create_factor_levels_sorted w n input).lt_of_le
    (create_factor_levels_nodup w n input)

/-! Facts for the general path of combine_to_factor. -/

theorem combine_code_val [LinearOrder α] [Inhabited α] (w n : Nat)
    (inputs : List (List α)) (h2 : 2 ≤ inputs.length)
    (hw : nrows (combine_to_factor w n inputs).1 ≤ 2 ^ w)
    (i : Nat) (hi : i < n) :
    (combine_to_factor w n inputs).2.getD i 0 =
      keyIndex w combLtb (obsTuples n inputs) (tupleAt inputs i) := by
  have hw2 : (distinctFirstSeen (obsTuples n inputs)).length ≤ 2 ^ w := by
    rw [← coreSorted_length w combLtb, ← combine_nrows w n inputs h2]
    exact hw
  have hitems : i < (obsTuples n inputs).length := by
    rw [obsTuples, List.length_map, List.length_range]
    exact hi
  have hcodes : (combine_to_factor w n inputs).2 =
      (factorCore w combLtb (obsTuples n inputs)).2 := by
    rw [combine_to_factor_eq w n inputs h2]
  rw [hcodes, factorCore_codes_getD w combLtb (obsTuples n inputs) hw2 i hitems,
    keyIndex, sortedKeys]
  congr 1
  simp only [obsTuples, List.getElem_map, List.getElem_range]

theorem combine_round_trip [LinearOrder α] [Inhabited α] (w n : Nat)
    (inputs : List (List α)) (h2 : 2 ≤ inputs.length)
    (hw : nrows (combine_to_factor w n inputs).1 ≤ 2 ^ w)
    (i : Nat) (hi : i < n) (f : Nat) (hf : f < inputs.length) :
    ((combine_to_factor w n inputs).1.getD f []).getD
        ((combine_to_factor w n inputs).2.getD i 0) default =
      (inputs.getD f []).getD i default := by
  have hmem : tupleAt inputs i ∈ sortedKeys w combLtb (obsTuples n inputs) := by
    refine coreSorted_fst_mem w combLtb (obsTuples n inputs) _ ?_
    rw [obsTuples, List.mem_iff_getElem]
    refine ⟨i, by simpa using hi, ?_⟩
    simp only [List.getElem_map, List.getElem_range]
  have hu : keyIndex w combLtb (obsTuples n inputs) (tupleAt inputs i) <
      (coreSorted w combLtb (obsTuples n inputs)).length := by
    have := keyIndex_lt w combLtb (obsTuples n inputs) _ hmem
    rwa [sortedKeys, List.length_map] at this
  rw [combine_code_val w n inputs h2 hw i hi]
  have htable : (combine_to_factor w n inputs).1.getD f [] =
      (coreSorted w combLtb (obsTuples n inputs)).map
        (fun p => p.1.getD f default) := by
    rw [combine_to_factor_eq w n inputs h2]
    simp only []
    rw [List.getD_eq_getElem _ _ (by simpa using hf), List.getElem_map,
      List.getElem_range]
  rw [htable, List.getD_eq_getElem _ _ (by simpa using hu), List.getElem_map]
  have hrow := keyIndex_getElem w combLtb (obsTuples n inputs) _ hmem hu
  rw [hrow, tupleAt, List.getD_eq_getElem _ _ (by simpa using hf),
    List.getElem_map, List.getD_eq_getElem _ _ hf]

theorem combine_density [LinearOrder α] [Inhabited α] (w n : Nat)
    (inputs : List (List α)) (h2 : 2 ≤ inputs.length)
    (hcols : ∀ col ∈ inputs, col.length = n)
    (hw : nrows (combine_to_factor w n inputs).1 ≤ 2 ^ w)
    (c : Nat) (hc : c < nrows (combine_to_factor w n inputs).1) :
    ∃ i, i < n ∧ (combine_to_factor w n inputs).2.getD i 0 = c := by
  have hclen : c < (coreSorted w combLtb (obsTuples n inputs)).length := by
    rw [← combine_nrows w n inputs h2]
    exact hc
  have hcmap : c < (sortedKeys w combLtb (obsTuples n inputs)).length := by
    rw [sortedKeys, List.length_map]
    exact hclen
  have hsub : ∀ y ∈ sortedKeys w combLtb (obsTuples n inputs),
      y ∈ obsTuples n inputs := by
    intro y hy
    rw [sortedKeys] at hy
    obtain ⟨p, hp, hpe⟩ := List.mem_map.mp hy
    have h3 : p.1 ∈ obsTuples n inputs :=
      (distinctFirstSeen_mem _ _).mp (coreSorted_fst_mem_dts w _ _ p hp)
    rwa [hpe] at h3
  have hmem : (sortedKeys w combLtb (obsTuples n inputs))[c] ∈
      obsTuples n inputs := hsub _ (List.getElem_mem hcmap)
  obtain ⟨i, hit, hie⟩ := List.mem_iff_getElem.mp hmem
  have hin : i < n := by
    rw [obsTuples, List.length_map, List.length_range] at hit
    exact hit
  refine ⟨i, hin, ?_⟩
  rw [combine_code_val w n inputs h2 hw i hin]
  have htup : tupleAt inputs i = (sortedKeys w combLtb (obsTuples n inputs))[c] := by
    rw [← hie]
    simp only [obsTuples, List.getElem_map, List.getElem_range]
  rw [keyIndex, htup, List.indexOf_getElem (by
    rw [sortedKeys]
    exact coreSorted_fst_nodup w combLtb (obsTuples n inputs))]

/-- Rows of the general-path table are the sorted distinct tuples, and they
are pairwise in strict lexicographic order. -/
theorem combine_rows_strict [LinearOrder α] [Inhabited α] (w n : Nat)
    (inputs : List (List α)) (h2 : 2 ≤ inputs.length) (u v : Nat)
    (huv : u < v) (hv : v < nrows (combine_to_factor w n inputs).1) :
    rowAt (combine_to_factor w n inputs).1 u ≠
        rowAt (combine_to_factor w n inputs).1 v ∧
      tupLt (rowAt (combine_to_factor w n inputs).1 v)
        (rowAt (combine_to_factor w n inputs).1 u) = false := by
  have hvlen : v < (coreSorted w combLtb (obsTuples n inputs)).length := by
    rw [← combine_nrows w n inputs h2]
    exact hv
  have hulen : u < (coreSorted w combLtb (obsTuples n inputs)).length :=
    lt_trans huv hvlen
  rw [combine_rowAt w n inputs h2 u hulen, combine_rowAt w n inputs h2 v hvlen]
  constructor
  · intro heq
    have hnd := coreSorted_fst_nodup w combLtb (obsTuples n inputs)
    have hmapu : u < ((coreSorted w combLtb (obsTuples n inputs)).map
        Prod.fst).length := by simpa using hulen
    have hmapv : v < ((coreSorted w combLtb (obsTuples n inputs)).map
        Prod.fst).length := by simpa using hvlen
    have heq2 : ((coreSorted w combLtb (obsTuples n inputs)).map Prod.fst)[u] =
        ((coreSorted w combLtb (obsTuples n inputs)).map Prod.fst)[v] := by
      rw [List.getElem_map, List.getElem_map]
      exact heq
    have := (hnd.getElem_inj_iff).mp heq2
    omega
  · have hsorted := coreSorted_sorted_comb w n inputs
    exact List.pairwise_iff_getElem.mp hsorted u v hulen hvlen huv

/-! ## Degenerate cases and table rows of the full combiner -/

theorem combine_k0 [LinearOrder α] [Inhabited α] (w n : Nat) :
    combine_to_factor w n ([] : List (List α)) = ([], List.replicate n 0) := rfl

theorem combine_k1 [LinearOrder α] [Inhabited α] (w n : Nat) (col : List α) :
    combine_to_factor w n [col] =
      ([(create_factor w n col).1], (create_factor w n col).2) := rfl

theorem unused_k0 (w n : Nat) (codes0 : List Nat) :
    combine_to_factor_unused w n [] codes0 =
      (List.replicate n 0 ++ codes0.drop n, some []) := rfl

theorem unused_k1 (w n : Nat) (vals : List Nat) (c : Nat) (codes0 : List Nat) :
    combine_to_factor_unused w n [(vals, c)] codes0 =
      ((vals.take n).map (wrap w) ++ codes0.drop n,
        some [(List.range c).map (wrap w)]) := rfl

theorem map_wrap_range (w c : Nat) (hc : c ≤ 2 ^ w) :
    (List.range c).map (wrap w) = List.range c := by
  have h1 : ∀ j ∈ List.range c, wrap w j = j := by
    intro j hj
    have : j < c := List.mem_range.mp hj
    exact Nat.mod_eq_of_lt (by omega)
  calc (List.range c).map (wrap w) = (List.range c).map id :=
      List.map_congr_left h1
    _ = List.range c := List.map_id _

/-- A single-column table with strictly sorted levels has strictly
lexicographically sorted, duplicate-free rows. -/
theorem singleton_table_strict [LinearOrder α] [Inhabited α] (levels : List α)
    (hs : levels.Sorted (· < ·)) (u v : Nat) (huv : u < v)
    (hv : v < nrows [levels]) :
    rowAt [levels] u ≠ rowAt [levels] v ∧
      tupLt (rowAt [levels] v) (rowAt [levels] u) = false := by
  have hvl : v < levels.length := hv
  have hul : u < levels.length := lt_trans huv hvl
  have hlt : levels[u] < levels[v] :=
    List.pairwise_iff_getElem.mp hs u v hul hvl huv
  have hrow : ∀ (j : Nat) (hj : j < levels.length),
      rowAt [levels] j = [levels[j]] := by
    intro j hj
    rw [rowAt, List.map_cons, List.map_nil, List.getD_eq_getElem _ _ hj]
  rw [hrow u hul, hrow v hvl]
  constructor
  · intro h
    have : levels[u] = levels[v] := by
      simpa using h
    exact absurd this (ne_of_lt hlt)
  · rw [tupLt_singleton]
    simp [not_lt.mpr hlt.le]

/-- Row `j` of the full Cartesian table is `unrank` of `j`. -/
theorem unused_table_rowAt (cs : List Nat) (k N j : Nat) (hk : cs.length = k)
    (hj : j < N) :
    rowAt ((List.range k).map (fun f =>
        (List.range N).map (fun j2 => (unrank cs j2).getD f 0))) j =
      unrank cs j := by
  refine List.ext_getElem ?_ ?_
  · simp only [rowAt]
    rw [List.length_map, List.length_map, List.length_range, unrank_length, hk]
  · intro f hf1 hf2
    have hfk : f < cs.length := by
      rw [hk]
      simpa [rowAt] using hf1
    simp only [rowAt]
    rw [List.getElem_map, List.getElem_map, List.getElem_range,
      List.getD_eq_getElem _ _ (by simpa using hj), List.getElem_map,
      List.getElem_range, List.getD_eq_getElem _ _ (by
        rw [unrank_length]
        exact hfk)]

/-- A table loop that completes never met a zero cardinality: the division
`outer_repeats /= cardinality` would have been undefined behaviour. -/
theorem tableLoop_some_pos (w : Nat) :
    ∀ (csr : List Nat) (inner outer : Nat) (L : List (List Nat)),
      tableLoop w csr inner outer = some L → ∀ c ∈ csr, 0 < c
  | [], _, _, _, _ => by simp
  | c :: rest, inner, outer, L, h => by
    intro x hx
    rw [tableLoop] at h
    simp only [] at h
    split at h
    · cases h
    · split at h
      · cases h
      · split at h
        · cases h
        · rename_i L2 heq
          rcases List.mem_cons.mp hx with rfl | hx2
          · omega
          · exact tableLoop_some_pos w rest _ _ _ heq x hx2

/-! ## Sanity checks: the worked scenarios of the specification -/

example : create_factor 8 4 [10, 30, 20, 10] = ([10, 20, 30], [0, 2, 1, 0]) := by decide

example : combine_to_factor 8 4 [[2, 1, 2, 3], [1, 1, 2, 1]] =
    ([[1, 2, 2, 3], [1, 1, 2, 1]], [1, 0, 2, 3]) := by decide

example : combine_to_factor_unused 8 3 [([0, 1, 0], 2), ([2, 0, 1], 3)] [0, 0, 0] =
    ([2, 3, 1], some [[0, 0, 0, 1, 1, 1], [0, 1, 2, 0, 1, 2]]) := by decide

/-! ## Round trip for the full combiner, all arities -/

theorem unused_round_trip (w n : Nat) (inputs : List (List Nat × Nat))
    (codes0 : List Nat)
    (hlens : ∀ p ∈ inputs, p.1.length = n)
    (hvals : ∀ p ∈ inputs, ∀ i, i < n → p.1.getD i 0 < p.2)
    (hrepr : (inputs.map Prod.snd).prod < 2 ^ w)
    (T : List (List Nat))
    (hT : (combine_to_factor_unused w n inputs codes0).2 = some T)
    (i : Nat) (hi : i < n) (f : Nat) (hf : f < inputs.length) :
    (T.getD f []).getD
        ((combine_to_factor_unused w n inputs codes0).1.getD i 0) 0 =
      (inputs.getD f ([], 0)).1.getD i 0 := by
  match inputs, hf with
  | [(vals, c)], hf =>
    have hf1 : f < 1 := by simpa using hf
    have hf0 : f = 0 := by omega
    subst hf0
    have hvlen : vals.length = n := hlens _ (List.mem_cons_self _ _)
    have hc : c < 2 ^ w := by simpa using hrepr
    have hvi : vals.getD i 0 < c := hvals _ (List.mem_cons_self _ _) i hi
    rw [unused_k1] at hT
    have hTeq : T = [(List.range c).map (wrap w)] := by
      simpa using hT.symm
    subst hTeq
    rw [unused_k1]
    simp only []
    have hitake : i < ((vals.take n).map (wrap w)).length := by
      rw [List.length_map, List.length_take]
      omega
    rw [List.getD_append _ _ _ _ hitake, List.getD_eq_getElem _ _ hitake,
      List.getElem_map, List.getElem_take, List.getD_cons_zero]
    have hilt : i < vals.length := by omega
    have hvi2 : vals[i] = vals.getD i 0 :=
      (List.getD_eq_getElem _ _ hilt).symm
    rw [hvi2, wrap, Nat.mod_eq_of_lt (by omega)]
    have hvic : vals.getD i 0 < ((List.range c).map (wrap w)).length := by
      rw [List.length_map, List.length_range]
      exact hvi
    rw [List.getD_eq_getElem _ _ hvic, List.getElem_map, List.getElem_range]
    rw [show wrap w (vals.getD i 0) = vals.getD i 0 from
      Nat.mod_eq_of_lt (by omega)]
    simp
  | (p1 :: p2 :: ps), hf =>
    set inputs := p1 :: p2 :: ps with hinputs
    have h2 : 2 ≤ inputs.length := by rw [hinputs]; simp
    have hpos : ∀ p ∈ inputs, 0 < p.2 := fun p hp =>
      Nat.lt_of_le_of_lt (Nat.zero_le _) (hvals p hp i hi)
    have htab := combine_unused_table w n inputs codes0 h2 hpos hrepr
    rw [htab] at hT
    have hTeq : T = (List.range inputs.length).map (fun f2 =>
        (List.range ((inputs.map Prod.snd).prod)).map
          (fun j => (unrank (inputs.map Prod.snd) j).getD f2 0)) := by
      simpa using hT.symm
    subst hTeq
    have hcode := combine_unused_codes w n inputs codes0 h2 hlens hvals hpos
      hrepr i hi
    rw [hcode]
    have hfa : List.Forall₂ (fun v c => v < c)
        (inputs.map (fun p => p.1.getD i 0)) (inputs.map Prod.snd) := by
      rw [List.forall₂_iff_get]
      refine ⟨by simp, fun g h1 h2g => ?_⟩
      simp only [List.get_eq_getElem, List.getElem_map]
      exact hvals _ (List.getElem_mem (by simpa using h1)) i hi
    have hrank : rankOf (inputs.map Prod.snd)
        (inputs.map (fun p => p.1.getD i 0)) < (inputs.map Prod.snd).prod :=
      rankOf_lt _ _ hfa
    have hfT : f < ((List.range inputs.length).map (fun f2 =>
        (List.range ((inputs.map Prod.snd).prod)).map
          (fun j => (unrank (inputs.map Prod.snd) j).getD f2 0))).length := by
      rw [List.length_map, List.length_range]
      exact hf
    rw [List.getD_eq_getElem _ _ hfT, List.getElem_map, List.getElem_range]
    have hrT : rankOf (inputs.map Prod.snd) (inputs.map (fun p => p.1.getD i 0)) <
        ((List.range ((inputs.map Prod.snd).prod)).map
          (fun j => (unrank (inputs.map Prod.snd) j).getD f 0)).length := by
      rw [List.length_map, List.length_range]
      exact hrank
    rw [List.getD_eq_getElem _ _ hrT, List.getElem_map, List.getElem_range,
      unrank_rankOf _ _ hfa]
    rw [List.getD_eq_getElem _ _ (by simpa using hf), List.getElem_map,
      List.getD_eq_getElem _ _ hf]

/-! ## The claims -/

/-- Claim C1: round-trip.  For every call to create_factor,
combine_to_factor, or combine_to_factor_unused (under the full-combiner
precondition that each raw value lies in [0, cardinality)), and for every
observation index i < n, indexing the returned level/combination table at
codes[i] reconstructs exactly observation i's original value (or tuple of
values, one per variable).  As everywhere in the specification, the code
type is assumed able to represent the number of table entries (its
documented precondition): for the observed variants this is the hypothesis
that the number of rows is at most 2 ^ w, for the full variant that the
cardinality product is. -/
theorem c1_round_trip :
    (∀ (w n : Nat) (input : List Nat), input.length = n →
      (create_factor w n input).1.length ≤ 2 ^ w →
      ∀ i, i < n →
        (create_factor w n input).1.getD
            ((create_factor w n input).2.getD i 0) 0 = input.getD i 0) ∧
    (∀ (w n : Nat) (inputs : List (List Nat)),
      (∀ col ∈ inputs, col.length = n) →
      nrows (combine_to_factor w n inputs).1 ≤ 2 ^ w →
      ∀ i, i < n → ∀ f, f < inputs.length →
        ((combine_to_factor w n inputs).1.getD f []).getD
            ((combine_to_factor w n inputs).2.getD i 0) 0 =
          (inputs.getD f []).getD i 0) ∧
    (∀ (w n : Nat) (inputs : List (List Nat × Nat)) (codes0 : List Nat),
      (∀ p ∈ inputs, p.1.length = n) →
      (∀ p ∈ inputs, ∀ i, i < n → p.1.getD i 0 < p.2) →
      (inputs.map Prod.snd).prod < 2 ^ w →
      ∀ T, (combine_to_factor_unused w n inputs codes0).2 = some T →
        ∀ i, i < n → ∀ f, f < inputs.length →
          (T.getD f []).getD
              ((combine_to_factor_unused w n inputs codes0).1.getD i 0) 0 =
            (inputs.getD f ([], 0)).1.getD i 0) := by
  refine ⟨?_, ?_, ?_⟩
  · intro w n input hlen hw i hi
    exact create_factor_round_trip w n input hw i hi (by omega) 0
  · intro w n inputs hcols hw i hi f hf
    match inputs, hf with
    | [col], hf =>
      have hf1 : f < 1 := by simpa using hf
      have hf0 : f = 0 := by omega
      subst hf0
      rw [combine_k1]
      simp only [List.getD_cons_zero]
      exact create_factor_round_trip w n col (by
          rw [combine_k1] at hw
          simpa [nrows] using hw)
        i hi (by rw [hcols col (List.mem_cons_self _ _)]; exact hi) 0
    | (c1 :: c2 :: cols), hf =>
      exact combine_round_trip w n (c1 :: c2 :: cols) (by simp) hw i hi f hf
  · intro w n inputs codes0 hlens hvals hrepr T hT i hi f hf
    exact unused_round_trip w n inputs codes0 hlens hvals hrepr T hT i hi f hf

/-- Witness for C1: the three parts applied to the worked scenarios of the
specification (Scenario B, Scenario A, Scenario C). -/
theorem c1_round_trip_witness :
    ((create_factor 8 4 [10, 30, 20, 10]).1.getD
        ((create_factor 8 4 [10, 30, 20, 10]).2.getD 1 0) 0 =
      ([10, 30, 20, 10] : List Nat).getD 1 0) ∧
    (((combine_to_factor 8 4 [[2, 1, 2, 3], [1, 1, 2, 1]]).1.getD 0 []).getD
        ((combine_to_factor 8 4 [[2, 1, 2, 3], [1, 1, 2, 1]]).2.getD 2 0) 0 =
      (([[2, 1, 2, 3], [1, 1, 2, 1]] : List (List Nat)).getD 0 []).getD 2 0) ∧
    ((([[0, 0, 0, 1, 1, 1], [0, 1, 2, 0, 1, 2]] : List (List Nat)).getD 1 []).getD
        ((combine_to_factor_unused 8 3
          [([0, 1, 0], 2), ([2, 0, 1], 3)] [0, 0, 0]).1.getD 0 0) 0 =
      (([([0, 1, 0], 2), ([2, 0, 1], 3)] :
        List (List Nat × Nat)).getD 1 ([], 0)).1.getD 0 0) :=
  ⟨c1_round_trip.1 8 4 [10, 30, 20, 10] rfl (by decide) 1 (by decide),
   c1_round_trip.2.1 8 4 [[2, 1, 2, 3], [1, 1, 2, 1]] (by decide) (by decide)
     2 (by decide) 0 (by decide),
   c1_round_trip.2.2 8 3 [([0, 1, 0], 2), ([2, 0, 1], 3)] [0, 0, 0]
     (by decide) (by decide) (by decide)
     [[0, 0, 0, 1, 1, 1], [0, 1, 2, 0, 1, 2]] (by decide) 0 (by decide)
     1 (by decide)⟩

/-- Claim C2: mixed-radix code formula.  For combine_to_factor_unused with
k >= 2 variables, assuming every raw value of variable f lies in
[0, cardinality[f]) and the product of all cardinalities is representable
in the code type, the returned codes satisfy codes[i] = sum over variables
f of value_f[i] times the product of the cardinalities of all variables
after f (first variable slowest-varying); in particular for cardinalities
(2,3) with variable1=[0,1,0] and variable2=[2,0,1] the codes are
variable1*3+variable2 = [2,3,1]. -/
theorem c2_mixed_radix :
    (∀ (w n : Nat) (inputs : List (List Nat × Nat)) (codes0 : List Nat),
      2 ≤ inputs.length →
      (∀ p ∈ inputs, p.1.length = n) →
      (∀ p ∈ inputs, ∀ i, i < n → p.1.getD i 0 < p.2) →
      (inputs.map Prod.snd).prod < 2 ^ w →
      ∀ i, i < n →
        (combine_to_factor_unused w n inputs codes0).1.getD i 0 =
          ∑ f ∈ Finset.range inputs.length,
            (inputs.getD f ([], 0)).1.getD i 0 *
              ((inputs.map Prod.snd).drop (f + 1)).prod) ∧
    combine_to_factor_unused 8 3 [([0, 1, 0], 2), ([2, 0, 1], 3)] [0, 0, 0] =
      ([2, 3, 1], some [[0, 0, 0, 1, 1, 1], [0, 1, 2, 0, 1, 2]]) := by
  constructor
  · intro w n inputs codes0 h2 hlens hvals hrepr i hi
    have hpos : ∀ p ∈ inputs, 0 < p.2 := fun p hp =>
      Nat.lt_of_le_of_lt (Nat.zero_le _) (hvals p hp i hi)
    rw [combine_unused_codes w n inputs codes0 h2 hlens hvals hpos hrepr i hi,
      rankOf_eq_sum _ _ (by simp), List.length_map]
    refine Finset.sum_congr rfl (fun f hfmem => ?_)
    have hf : f < inputs.length := Finset.mem_range.mp hfmem
    rw [List.getD_eq_getElem _ _ (by simpa using hf), List.getElem_map,
      List.getD_eq_getElem _ _ hf]
  · decide

/-- Witness for C2: the formula instantiated at Scenario C, observation 1:
its code is 1*3 + 0 = 3. -/
theorem c2_mixed_radix_witness :
    (combine_to_factor_unused 8 3
        [([0, 1, 0], 2), ([2, 0, 1], 3)] [0, 0, 0]).1.getD 1 0 =
      ∑ f ∈ Finset.range ([([0, 1, 0], 2), ([2, 0, 1], 3)] :
          List (List Nat × Nat)).length,
        (([([0, 1, 0], 2), ([2, 0, 1], 3)] :
            List (List Nat × Nat)).getD f ([], 0)).1.getD 1 0 *
          ((([([0, 1, 0], 2), ([2, 0, 1], 3)] :
            List (List Nat × Nat)).map Prod.snd).drop (f + 1)).prod :=
  c2_mixed_radix.1 8 3 [([0, 1, 0], 2), ([2, 0, 1], 3)] [0, 0, 0]
    (by decide) (by decide) (by decide) (by decide) 1 (by decide)

/-- Counterexample to claim C3 as stated: with cardinalities (3, 0) the
product of all cardinalities is 0, which is representable, yet no table is
returned: the loop executes `outer_repeats /= 0`, an integer division by
zero (undefined behaviour), modelled as a failing result. -/
theorem c3_cartesian_counterexample :
    (combine_to_factor_unused 8 0 [([], 3), ([], 0)] []).2 = none ∧
      (([([], 3), ([], 0)] : List (List Nat × Nat)).map Prod.snd).prod <
        2 ^ 8 := by
  decide

/-- Claim C3 as amended: Cartesian completeness, additionally requiring all
cardinalities to be positive when k >= 2 (a zero cardinality makes the
table loop divide by zero).  For k >= 1 variables whose cardinality product
is representable, the call returns a table whose columns all have length
equal to the product of all declared cardinalities, every combination of
per-variable levels in [0, cardinality) appears in exactly one row, and
rows are ordered lexicographically with the first variable
slowest-varying. -/
theorem c3_cartesian_completeness :
    ∀ (w n : Nat) (inputs : List (List Nat × Nat)) (codes0 : List Nat),
      1 ≤ inputs.length →
      (2 ≤ inputs.length → ∀ p ∈ inputs, 0 < p.2) →
      (inputs.map Prod.snd).prod < 2 ^ w →
      ∃ T, (combine_to_factor_unused w n inputs codes0).2 = some T ∧
        T.length = inputs.length ∧
        (∀ col ∈ T, col.length = (inputs.map Prod.snd).prod) ∧
        (∀ vs : List Nat,
          List.Forall₂ (fun v c => v < c) vs (inputs.map Prod.snd) →
          ∃! j, j < (inputs.map Prod.snd).prod ∧ rowAt T j = vs) ∧
        (∀ u v, u < v → v < (inputs.map Prod.snd).prod →
          tupLt (rowAt T u) (rowAt T v) = true) := by
  intro w n inputs codes0 h1 hpos2 hrepr
  match inputs, h1 with
  | [(vals, c)], h1 =>
    have hc2w : c ≤ 2 ^ w := by
      have : c * 1 < 2 ^ w := by simpa using hrepr
      omega
    refine ⟨[List.range c], ?_, rfl, ?_, ?_, ?_⟩
    · rw [unused_k1, map_wrap_range w c hc2w]
    · intro col hcol
      have : col = List.range c := by simpa using hcol
      rw [this, List.length_range]
      simp
    · intro vs hfa
      rcases hfa with _ | ⟨hv, htail⟩
      rename_i v vs2
      cases htail
      have hprod : (([(vals, c)] : List (List Nat × Nat)).map Prod.snd).prod
          = c := by simp
      refine ⟨v, ⟨by rw [hprod]; simpa using hv, ?_⟩, ?_⟩
      · rw [rowAt, List.map_cons, List.map_nil,
          List.getD_eq_getElem _ _ (by
            rw [List.length_range]
            simpa using hv),
          List.getElem_range]
      · rintro j ⟨hj, hrow⟩
        rw [hprod] at hj
        rw [rowAt, List.map_cons, List.map_nil,
          List.getD_eq_getElem _ _ (by rw [List.length_range]; exact hj),
          List.getElem_range] at hrow
        simpa using hrow
    · intro u v huv hv
      have hvc : v < c := by simpa using hv
      have hrow : ∀ j, j < c → rowAt [List.range c] j = [j] := by
        intro j hj
        rw [rowAt, List.map_cons, List.map_nil,
          List.getD_eq_getElem _ _ (by rw [List.length_range]; exact hj),
          List.getElem_range]
      rw [hrow u (by omega), hrow v hvc, tupLt_singleton]
      simpa using huv
  | (p1 :: p2 :: ps), h1 =>
    set inputs := p1 :: p2 :: ps with hinputs
    have h2 : 2 ≤ inputs.length := by rw [hinputs]; simp
    have hpos : ∀ p ∈ inputs, 0 < p.2 := hpos2 h2
    have hcspos : ∀ x ∈ inputs.map Prod.snd, 0 < x := by
      intro x hx
      obtain ⟨p, hp, rfl⟩ := List.mem_map.mp hx
      exact hpos p hp
    refine ⟨_, combine_unused_table w n inputs codes0 h2 hpos hrepr, ?_, ?_,
      ?_, ?_⟩
    · rw [List.length_map, List.length_range]
    · intro col hcol
      obtain ⟨f, _, rfl⟩ := List.mem_map.mp hcol
      rw [List.length_map, List.length_range]
    · intro vs hfa
      refine ⟨rankOf (inputs.map Prod.snd) vs,
        ⟨rankOf_lt _ _ hfa, ?_⟩, ?_⟩
      · rw [unused_table_rowAt _ _ _ _ (by simp) (rankOf_lt _ _ hfa),
          unrank_rankOf _ _ hfa]
      · rintro j ⟨hj, hrow⟩
        rw [unused_table_rowAt _ _ _ _ (by simp) hj] at hrow
        rw [← hrow, rankOf_unrank _ _ hcspos hj]
    · intro u v huv hv
      rw [unused_table_rowAt _ _ _ _ (by simp) (by omega),
        unused_table_rowAt _ _ _ _ (by simp) hv]
      exact unrank_tupLt _ _ _ hcspos huv hv

/-- Witness for the amended C3: applied to Scenario C. -/
theorem c3_cartesian_completeness_witness :
    ∃ T, (combine_to_factor_unused 8 3
        [([0, 1, 0], 2), ([2, 0, 1], 3)] [0, 0, 0]).2 = some T ∧
      T.length = ([([0, 1, 0], 2), ([2, 0, 1], 3)] :
        List (List Nat × Nat)).length ∧
      (∀ col ∈ T, col.length = (([([0, 1, 0], 2), ([2, 0, 1], 3)] :
        List (List Nat × Nat)).map Prod.snd).prod) ∧
      (∀ vs : List Nat,
        List.Forall₂ (fun v c => v < c) vs
          (([([0, 1, 0], 2), ([2, 0, 1], 3)] :
            List (List Nat × Nat)).map Prod.snd) →
        ∃! j, j < (([([0, 1, 0], 2), ([2, 0, 1], 3)] :
            List (List Nat × Nat)).map Prod.snd).prod ∧ rowAt T j = vs) ∧
      (∀ u v, u < v →
        v < (([([0, 1, 0], 2), ([2, 0, 1], 3)] :
          List (List Nat × Nat)).map Prod.snd).prod →
        tupLt (rowAt T u) (rowAt T v) = true) :=
  c3_cartesian_completeness 8 3 [([0, 1, 0], 2), ([2, 0, 1], 3)] [0, 0, 0]
    (by decide) (fun _ => by decide) (by decide)

theorem nrows_map_range (k N : Nat) (g : Nat → Nat → Nat) (hk : 1 ≤ k) :
    nrows ((List.range k).map (fun f => (List.range N).map (g f))) = N := by
  obtain ⟨k2, rfl⟩ : ∃ k2, k = k2 + 1 := ⟨k - 1, by omega⟩
  rw [List.range_succ_eq_map, List.map_cons, nrows, List.headD_cons,
    List.length_map, List.length_range]

/-- Claim C4: uniqueness and sortedness.  The table returned by
create_factor, combine_to_factor and combine_to_factor_unused contains no
duplicate rows and is lexicographically non-decreasing by (variable 0, then
variable 1, ...): any two rows in order are distinct and the later one is
never lexicographically below the earlier one.  For create_factor the table
is the single level column.  For the full combiner the product of the
declared cardinalities is assumed representable in the code type (the
documented precondition; see the C4 counterexample for what happens beyond
it) and the property is stated for the table the call returns. -/
theorem c4_unique_sorted :
    (∀ (w n : Nat) (input : List Nat) (u v : Nat), u < v →
      v < nrows [(create_factor w n input).1] →
      rowAt [(create_factor w n input).1] u ≠
          rowAt [(create_factor w n input).1] v ∧
        tupLt (rowAt [(create_factor w n input).1] v)
          (rowAt [(create_factor w n input).1] u) = false) ∧
    (∀ (w n : Nat) (inputs : List (List Nat)) (u v : Nat), u < v →
      v < nrows (combine_to_factor w n inputs).1 →
      rowAt (combine_to_factor w n inputs).1 u ≠
          rowAt (combine_to_factor w n inputs).1 v ∧
        tupLt (rowAt (combine_to_factor w n inputs).1 v)
          (rowAt (combine_to_factor w n inputs).1 u) = false) ∧
    (∀ (w n : Nat) (inputs : List (List Nat × Nat)) (codes0 : List Nat),
      (inputs.map Prod.snd).prod < 2 ^ w →
      ∀ T, (combine_to_factor_unused w n inputs codes0).2 = some T →
      ∀ u v, u < v → v < nrows T →
        rowAt T u ≠ rowAt T v ∧ tupLt (rowAt T v) (rowAt T u) = false) := by
  refine ⟨?_, ?_, ?_⟩
  · intro w n input u v huv hv
    exact singleton_table_strict _ (create_factor_strict w n input) u v huv hv
  · intro w n inputs u v huv hv
    match inputs with
    | [] =>
      rw [combine_k0, nrows] at hv
      simp at hv
    | [col] =>
      exact singleton_table_strict _ (create_factor_strict w n col) u v huv hv
    | (c1 :: c2 :: cols) =>
      exact combine_rows_strict w n (c1 :: c2 :: cols) (by simp) u v huv hv
  · intro w n inputs codes0 hrepr T hT u v huv hv
    match inputs with
    | [] =>
      rw [unused_k0] at hT
      have hTe : T = [] := by simpa using hT.symm
      subst hTe
      rw [nrows] at hv
      simp at hv
    | [(vals, c)] =>
      have hc2w : c ≤ 2 ^ w := by
        have : c * 1 < 2 ^ w := by simpa using hrepr
        omega
      rw [unused_k1, map_wrap_range w c hc2w] at hT
      have hTe : T = [List.range c] := by simpa using hT.symm
      subst hTe
      exact singleton_table_strict _ (List.pairwise_lt_range c) u v huv hv
    | (p1 :: p2 :: ps) =>
      set inputs := p1 :: p2 :: ps with hinputs
      have h2 : 2 ≤ inputs.length := by rw [hinputs]; simp
      have hT0 := hT
      rw [combine_to_factor_unused, if_neg (by omega), if_neg (by omega)]
        at hT
      simp only [] at hT
      split at hT
      · cases hT
      · rename_i N hrun
        have hpos : ∀ p ∈ inputs, 0 < p.2 := by
          intro p hp
          refine tableLoop_some_pos w _ _ _ _ hT p.2 ?_
          rw [List.mem_reverse]
          exact List.mem_map.mpr ⟨p, hp, rfl⟩
        have hmaster := combine_unused_table w n inputs codes0 h2 hpos hrepr
        rw [hT0] at hmaster
        have hTe : T = (List.range inputs.length).map (fun f =>
            (List.range ((inputs.map Prod.snd).prod)).map
              (fun j => (unrank (inputs.map Prod.snd) j).getD f 0)) := by
          simpa using hmaster
        subst hTe
        have hN : nrows ((List.range inputs.length).map (fun f =>
            (List.range ((inputs.map Prod.snd).prod)).map
              (fun j => (unrank (inputs.map Prod.snd) j).getD f 0))) =
            (inputs.map Prod.snd).prod :=
          nrows_map_range _ _ (fun f j => (unrank (inputs.map Prod.snd) j).getD f 0)
            (by omega)
        rw [hN] at hv
        have hcspos : ∀ x ∈ inputs.map Prod.snd, 0 < x := by
          intro x hx
          obtain ⟨p, hp, rfl⟩ := List.mem_map.mp hx
          exact hpos p hp
        rw [unused_table_rowAt _ _ _ _ (by simp) (by omega),
          unused_table_rowAt _ _ _ _ (by simp) hv]
        have hlt := unrank_tupLt (inputs.map Prod.snd) u v hcspos huv hv
        constructor
        · intro heq
          rw [heq] at hlt
          rw [tupLt_irrefl] at hlt
          cases hlt
        · exact tupLt_asymm _ _ hlt

/-- Witness for C4: applied to Scenarios B, A and C. -/
theorem c4_unique_sorted_witness :
    (rowAt [(create_factor 8 4 [10, 30, 20, 10]).1] 0 ≠
        rowAt [(create_factor 8 4 [10, 30, 20, 10]).1] 2 ∧
      tupLt (rowAt [(create_factor 8 4 [10, 30, 20, 10]).1] 2)
        (rowAt [(create_factor 8 4 [10, 30, 20, 10]).1] 0) = false) ∧
    (rowAt (combine_to_factor 8 4 [[2, 1, 2, 3], [1, 1, 2, 1]]).1 1 ≠
        rowAt (combine_to_factor 8 4 [[2, 1, 2, 3], [1, 1, 2, 1]]).1 2 ∧
      tupLt (rowAt (combine_to_factor 8 4 [[2, 1, 2, 3], [1, 1, 2, 1]]).1 2)
        (rowAt (combine_to_factor 8 4 [[2, 1, 2, 3], [1, 1, 2, 1]]).1 1) =
        false) ∧
    (rowAt [[0, 0, 0, 1, 1, 1], [0, 1, 2, 0, 1, 2]] 3 ≠
        rowAt [[0, 0, 0, 1, 1, 1], [0, 1, 2, 0, 1, 2]] 5 ∧
      tupLt (rowAt [[0, 0, 0, 1, 1, 1], [0, 1, 2, 0, 1, 2]] 5)
        (rowAt [[0, 0, 0, 1, 1, 1], [0, 1, 2, 0, 1, 2]] 3) = false) :=
  ⟨c4_unique_sorted.1 8 4 [10, 30, 20, 10] 0 2 (by decide) (by decide),
   c4_unique_sorted.2.1 8 4 [[2, 1, 2, 3], [1, 1, 2, 1]] 1 2 (by decide)
     (by decide),
   c4_unique_sorted.2.2 8 3 [([0, 1, 0], 2), ([2, 0, 1], 3)] [0, 0, 0]
     (by decide) [[0, 0, 0, 1, 1, 1], [0, 1, 2, 0, 1, 2]] (by decide)
     3 5 (by decide) (by decide)⟩

/-- Counterexample to claim C5 as stated: with an 8-bit code type and
cardinalities (16, 16) the product 256 overflows, the call fails, but the
caller-supplied codes array (here [99]) has already been overwritten with
the last variable's value (here [5]) by the `std::copy_n` that precedes the
first checked product. -/
theorem c5_overflow_counterexample :
    combine_to_factor_unused 8 1 [([0], 16), ([5], 16)] [99] =
      ([5], none) := by
  decide

/-- Claim C5 as amended: when combine_to_factor_unused is asked for a full
combination across cardinalities (each itself representable in the code
type) whose product exceeds the code type's range, the call fails before
the combination table is constructed and returned (no table output is
produced); however, entries of the caller-supplied codes array may already
have been overwritten at the point of failure. -/
theorem c5_overflow_aborts :
    ∀ (w n : Nat) (inputs : List (List Nat × Nat)) (codes0 : List Nat),
      2 ≤ inputs.length →
      (∀ p ∈ inputs, p.2 < 2 ^ w) →
      2 ^ w ≤ (inputs.map Prod.snd).prod →
      (combine_to_factor_unused w n inputs codes0).2 = none := by
  intro w n inputs codes0 h2 hcards hover
  have hne : inputs ≠ [] := by
    intro h
    rw [h] at h2
    simp at h2
  have hlastmem : inputs.getLastD ([], 0) ∈ inputs := by
    have h1 : inputs.getLastD ([], 0) = inputs.getLast hne := by
      rw [List.getLastD_eq_getLast?, List.getLast?_eq_getLast inputs hne]
      rfl
    rw [h1]
    exact List.getLast_mem hne
  rw [combine_to_factor_unused, if_neg (by omega), if_neg (by omega)]
  simp only []
  split
  · rfl
  · rename_i N hrun
    exfalso
    obtain ⟨hm, hbound⟩ := mixedRadixLoop_snd_inv w _ _ _ _ hrun
    rw [show wrap w (inputs.getLastD ([], 0)).2 = (inputs.getLastD ([], 0)).2
        from Nat.mod_eq_of_lt (hcards _ hlastmem),
      unused_prod_decomp inputs hne] at hm
    have hrvne : inputs.dropLast.reverse ≠ [] := by
      intro h
      have := congrArg List.length h
      rw [List.length_reverse, List.length_dropLast] at this
      simp at this
      omega
    have := hbound hrvne
    omega

/-- Witness for the amended C5: an 8-bit code type with cardinalities
(16, 16): the product 256 exceeds 255 and no table is returned. -/
theorem c5_overflow_aborts_witness :
    (combine_to_factor_unused 8 0 [([], 16), ([], 16)] []).2 = none :=
  c5_overflow_aborts 8 0 [([], 16), ([], 16)] [] (by decide) (by decide)
    (by decide)

/-- Claim C6 is refuted by the code: with cardinalities (0, 2) (and no
observations, so that the stated precondition holds vacuously) the table
loop reaches `outer_repeats /= 0`, an integer division by zero and hence
undefined behaviour, modelled as a failing result: the call does not
complete with empty columns as the specification describes.  Before that
point the column of the cardinality-2 variable has already been built as
[0, 1], so the columns would not all be empty either. -/
theorem c6_zero_cardinality_diverges :
    (combine_to_factor_unused 8 0 [([], 0), ([], 2)] []).2 = none := by
  decide

theorem coreRemap_getD_lt (w : Nat) [DecidableEq β]
    (pltb : β × Nat → β × Nat → Bool) (items : List β) (j : Nat) :
    (coreRemap w pltb items).getD j 0 < 2 ^ w := by
  have hpow : 0 < 2 ^ w := Nat.pos_pow_of_pos w (by omega)
  have hb := remapFold_bounded
    ((coreSorted w pltb items).enum.map (fun q => (q.2.2, wrap w q.1)))
    (List.replicate (distinctFirstSeen items).length 0) (2 ^ w)
    (fun x hx => by
      rw [List.eq_of_mem_replicate hx]
      exact hpow)
    (fun p hp => by
      obtain ⟨q, _, rfl⟩ := List.mem_map.mp hp
      exact Nat.mod_lt _ hpow)
  rcases Nat.lt_or_ge j (coreRemap w pltb items).length with hj | hj
  · rw [List.getD_eq_getElem _ _ hj]
    exact hb _ (List.getElem_mem hj)
  · rw [List.getD_eq_default _ _ hj]
    exact hpow

set_option maxRecDepth 10000 in
/-- Counterexample to claim C7 as stated: two variables over 257
observations with 257 distinct combinations, with an 8-bit code type
(range 0..255).  The call completes normally — the returned table still has
257 rows — and no failure is raised; instead the first-seen labels are
narrowed modulo 256, so observations 0 and 256, which have different
combinations, silently receive the same code 0. -/
theorem c7_exhaustion_counterexample :
    ((combine_to_factor 8 257
        [List.range 257, List.replicate 257 0]).1.headD []).length = 257 ∧
    (combine_to_factor 8 257
        [List.range 257, List.replicate 257 0]).2.getD 0 99 = 0 ∧
    (combine_to_factor 8 257
        [List.range 257, List.replicate 257 0]).2.getD 256 99 = 0 := by
  decide

/-- Claim C7 as amended: exhausting the code type's range is NOT detected
by combine_to_factor.  The call always completes: the returned table has
one column per variable and one row per distinct observed combination
regardless of the code type's range (the remapping-table sizing check only
concerns the platform size type), and every written code is reduced into
[0, 2 ^ w), so codes collide silently once the number of distinct
combinations exceeds the range. -/
theorem c7_exhaustion_silent :
    ∀ (w n : Nat) (inputs : List (List Nat)), 2 ≤ inputs.length →
      (combine_to_factor w n inputs).1.length = inputs.length ∧
      nrows (combine_to_factor w n inputs).1 =
        (distinctFirstSeen (obsTuples n inputs)).length ∧
      ∀ i, i < n → (combine_to_factor w n inputs).2.getD i 0 < 2 ^ w := by
  intro w n inputs h2
  refine ⟨?_, ?_, ?_⟩
  · rw [combine_to_factor_eq w n inputs h2]
    simp only []
    rw [List.length_map, List.length_range]
  · rw [combine_nrows w n inputs h2, coreSorted_length]
  · intro i hi
    rw [combine_to_factor_eq w n inputs h2]
    simp only [factorCore]
    have hitems : i < (obsTuples n inputs).length := by
      rw [obsTuples, List.length_map, List.length_range]
      exact hi
    rw [List.getD_eq_getElem _ _ (by simpa using hitems), List.getElem_map]
    exact coreRemap_getD_lt w combLtb (obsTuples n inputs) _

/-- Witness for the amended C7: applied to Scenario A. -/
theorem c7_exhaustion_silent_witness :
    (combine_to_factor 8 4 [[2, 1, 2, 3], [1, 1, 2, 1]]).1.length =
        ([[2, 1, 2, 3], [1, 1, 2, 1]] : List (List Nat)).length ∧
      nrows (combine_to_factor 8 4 [[2, 1, 2, 3], [1, 1, 2, 1]]).1 =
        (distinctFirstSeen
          (obsTuples 4 [[2, 1, 2, 3], [1, 1, 2, 1]])).length ∧
      ∀ i, i < 4 →
        (combine_to_factor 8 4 [[2, 1, 2, 3], [1, 1, 2, 1]]).2.getD i 0 <
          2 ^ 8 :=
  c7_exhaustion_silent 8 4 [[2, 1, 2, 3], [1, 1, 2, 1]] (by decide)

/-- Claim C8: density of observed codes.  For every input to create_factor
and to combine_to_factor (with the code type able to represent the number
of table entries, the documented precondition), every integer code in
[0, M), where M is the length of the returned table, is assigned to at
least one observation in the output codes array. -/
theorem c8_density :
    (∀ (w n : Nat) (input : List Nat), input.length = n →
      (create_factor w n input).1.length ≤ 2 ^ w →
      ∀ c, c < (create_factor w n input).1.length →
        ∃ i, i < n ∧ (create_factor w n input).2.getD i 0 = c) ∧
    (∀ (w n : Nat) (inputs : List (List Nat)),
      (∀ col ∈ inputs, col.length = n) →
      nrows (combine_to_factor w n inputs).1 ≤ 2 ^ w →
      ∀ c, c < nrows (combine_to_factor w n inputs).1 →
        ∃ i, i < n ∧ (combine_to_factor w n inputs).2.getD i 0 = c) := by
  constructor
  · intro w n input hlen hw c hc
    exact create_factor_density w n input hlen hw c hc
  · intro w n inputs hcols hw c hc
    match inputs with
    | [] =>
      rw [combine_k0, nrows] at hc
      simp at hc
    | [col] =>
      exact create_factor_density w n col
        (hcols col (List.mem_cons_self _ _)) hw c hc
    | (c1 :: c2 :: cols) =>
      exact combine_density w n (c1 :: c2 :: cols) (by simp) hcols hw c hc

/-- Witness for C8: applied to Scenarios B and A. -/
theorem c8_density_witness :
    (∃ i, i < 4 ∧ (create_factor 8 4 [10, 30, 20, 10]).2.getD i 0 = 2) ∧
    (∃ i, i < 4 ∧
      (combine_to_factor 8 4 [[2, 1, 2, 3], [1, 1, 2, 1]]).2.getD i 0 = 3) :=
  ⟨c8_density.1 8 4 [10, 30, 20, 10] rfl (by decide) 2 (by decide),
   c8_density.2 8 4 [[2, 1, 2, 3], [1, 1, 2, 1]] (by decide) (by decide)
     3 (by decide)⟩

/-- Claim C9: degenerate k=1.  combine_to_factor on exactly one variable
returns the same codes and a single-column table equal to the levels
returned by create_factor on that variable; and combine_to_factor_unused
with one variable of cardinality c (and raw values within it, the
cardinality itself representable in the code type) returns the identity
level column 0..c-1 and codes copied verbatim from the raw input array. -/
theorem c9_degenerate_k1 :
    (∀ (w n : Nat) (input : List Nat),
      combine_to_factor w n [input] =
        ([(create_factor w n input).1], (create_factor w n input).2)) ∧
    (∀ (w n : Nat) (vals : List Nat) (c : Nat) (codes0 : List Nat),
      vals.length = n → codes0.length = n → (∀ v ∈ vals, v < c) →
      c ≤ 2 ^ w →
      combine_to_factor_unused w n [(vals, c)] codes0 =
        (vals, some [List.range c])) := by
  constructor
  · intro w n input
    exact combine_k1 w n input
  · intro w n vals c codes0 hvlen hclen hvals hc
    rw [unused_k1]
    refine Prod.ext ?_ ?_
    · simp only []
      rw [List.take_of_length_le (by omega),
        List.drop_eq_nil_of_le (by omega), List.append_nil]
      have hid : ∀ v ∈ vals, wrap w v = v := by
        intro v hv
        have := hvals v hv
        exact Nat.mod_eq_of_lt (by omega)
      calc vals.map (wrap w) = vals.map id := List.map_congr_left hid
        _ = vals := List.map_id _
    · simp only []
      rw [map_wrap_range w c hc]

/-- Witness for C9: the second part applied to values [2,0,1] with
cardinality 3 and an 8-bit code type. -/
theorem c9_degenerate_k1_witness :
    combine_to_factor_unused 8 3 [([2, 0, 1], 3)] [7, 7, 7] =
      ([2, 0, 1], some [List.range 3]) :=
  c9_degenerate_k1.2 8 3 [2, 0, 1] 3 [7, 7, 7] rfl rfl (by decide) (by decide)

/-- Claim C10: the implicit invariant bounding the unchecked arithmetic in
the full combiner.  Under the preconditions (every raw value within its
declared cardinality, cardinalities positive, product representable in the
code type), (i) after each stage of the back-to-front code loop the loop
state is intact: the running base is a representable value and every
accumulated code is strictly below it (so the unchecked
`product_unsafe` and the addition stay in range), and (ii) in the
table-construction loop the quantity `inner_repeats * cardinality` at each
stage — the product of the first j+1 reversed cardinalities — never exceeds
the checked total combination count. -/
theorem c10_unchecked_arithmetic_safe :
    ∀ (w n : Nat) (inputs : List (List Nat × Nat)),
      2 ≤ inputs.length →
      (∀ p ∈ inputs, p.1.length = n) →
      (∀ p ∈ inputs, ∀ i, i < n → p.1.getD i 0 < p.2) →
      (∀ p ∈ inputs, 0 < p.2) →
      (inputs.map Prod.snd).prod ≤ 2 ^ w - 1 →
      (∀ j, j ≤ inputs.dropLast.length →
        ∃ nc, (mixedRadixLoop w (inputs.dropLast.reverse.take j)
            (((inputs.getLastD ([], 0)).1.take n).map (wrap w))
            (wrap w (inputs.getLastD ([], 0)).2)).2 = some nc ∧
          nc ≤ 2 ^ w - 1 ∧
          ∀ x ∈ (mixedRadixLoop w (inputs.dropLast.reverse.take j)
            (((inputs.getLastD ([], 0)).1.take n).map (wrap w))
            (wrap w (inputs.getLastD ([], 0)).2)).1, x < nc) ∧
      (∀ j, j < inputs.length →
        ((inputs.map Prod.snd).reverse.take (j + 1)).prod ≤
          (inputs.map Prod.snd).prod) := by
  intro w n inputs h2 hlens hvals hpos hrepr
  have hpow : 0 < 2 ^ w := Nat.pos_pow_of_pos w (by omega)
  have hrepr2 : (inputs.map Prod.snd).prod < 2 ^ w := by omega
  have hne : inputs ≠ [] := by
    intro h
    rw [h] at h2
    simp at h2
  have hlastmem : inputs.getLastD ([], 0) ∈ inputs := by
    have h1 : inputs.getLastD ([], 0) = inputs.getLast hne := by
      rw [List.getLastD_eq_getLast?, List.getLast?_eq_getLast inputs hne]
      rfl
    rw [h1]
    exact List.getLast_mem hne
  have hlast : (inputs.getLastD ([], 0)).2 ≤ (inputs.map Prod.snd).prod :=
    last_card_le_prod inputs hne hpos
  have hwrap : wrap w (inputs.getLastD ([], 0)).2 =
      (inputs.getLastD ([], 0)).2 := Nat.mod_eq_of_lt (by omega)
  have hlastlen : (inputs.getLastD ([], 0)).1.length = n := hlens _ hlastmem
  have hcdlen : (((inputs.getLastD ([], 0)).1.take n).map (wrap w)).length =
      n := by
    rw [List.length_map, List.length_take, hlastlen]
    simp
  constructor
  · intro j hj
    have hsub : ∀ p ∈ inputs.dropLast.reverse.take j, p ∈ inputs :=
      fun p hp => List.mem_of_mem_dropLast
        (List.mem_reverse.mp (List.mem_of_mem_take hp))
    have htakeprod : (inputs.getLastD ([], 0)).2 *
        ((inputs.dropLast.reverse.take j).map Prod.snd).prod ≤
        (inputs.map Prod.snd).prod := by
      rw [← unused_prod_decomp inputs hne]
      refine Nat.mul_le_mul_left _ ?_
      have hsplit := List.prod_take_mul_prod_drop
        ((inputs.dropLast.reverse).map Prod.snd) j
      have hmt : (inputs.dropLast.reverse.take j).map Prod.snd =
          ((inputs.dropLast.reverse).map Prod.snd).take j := by
        rw [List.map_take]
      have hdpos : 0 <
          (((inputs.dropLast.reverse).map Prod.snd).drop j).prod := by
        refine List.prod_pos ?_
        intro x hx
        obtain ⟨p, hp, rfl⟩ := List.mem_map.mp (List.mem_of_mem_drop hx)
        exact hpos p (List.mem_of_mem_dropLast (List.mem_reverse.mp hp))
      rw [hmt]
      calc (((inputs.dropLast.reverse).map Prod.snd).take j).prod
          = (((inputs.dropLast.reverse).map Prod.snd).take j).prod * 1 := by
            omega
        _ ≤ (((inputs.dropLast.reverse).map Prod.snd).take j).prod *
            (((inputs.dropLast.reverse).map Prod.snd).drop j).prod :=
            Nat.mul_le_mul_left _ hdpos
        _ = ((inputs.dropLast.reverse).map Prod.snd).prod := hsplit
    have hrun := mixedRadixLoop_codes w (inputs.dropLast.reverse.take j)
      (((inputs.getLastD ([], 0)).1.take n).map (wrap w))
      ((inputs.getLastD ([], 0)).2)
      (hpos _ hlastmem)
      (fun p hp => hpos p (hsub p hp))
      (lt_of_le_of_lt htakeprod hrepr2)
      (fun p hp => by rw [hcdlen]; exact hlens p (hsub p hp))
      (fun p hp i hi => hvals p (hsub p hp) i (by rw [← hcdlen]; exact hi))
      (fun x hx => by
        obtain ⟨v, hv, rfl⟩ := List.mem_map.mp hx
        calc wrap w v ≤ v := Nat.mod_le _ _
          _ < (inputs.getLastD ([], 0)).2 := by
            obtain ⟨i2, hi2, rfl⟩ := List.mem_iff_getElem.mp hv
            have hi2n : i2 < n := by
              rw [List.length_take, hlastlen] at hi2
              omega
            have := hvals _ hlastmem i2 hi2n
            rw [List.getD_eq_getElem _ _ (by omega)] at this
            rw [List.getElem_take]
            exact this)
    have hsnd := mixedRadixLoop_snd_some w (inputs.dropLast.reverse.take j)
      (((inputs.getLastD ([], 0)).1.take n).map (wrap w))
      ((inputs.getLastD ([], 0)).2)
      (hpos _ hlastmem)
      (fun p hp => hpos p (hsub p hp))
      (lt_of_le_of_lt htakeprod hrepr2)
    rw [hwrap]
    refine ⟨(inputs.getLastD ([], 0)).2 *
      ((inputs.dropLast.reverse.take j).map Prod.snd).prod, hsnd, ?_, ?_⟩
    · omega
    · intro x hx
      exact hrun.2.2 x hx
  · intro j hj
    have hsplit := List.prod_take_mul_prod_drop
      ((inputs.map Prod.snd).reverse) (j + 1)
    have hdpos : 0 < (((inputs.map Prod.snd).reverse).drop (j + 1)).prod := by
      refine List.prod_pos ?_
      intro x hx
      obtain ⟨p, hp, rfl⟩ := List.mem_map.mp
        (List.mem_reverse.mp (List.mem_of_mem_drop hx))
      exact hpos p hp
    calc ((inputs.map Prod.snd).reverse.take (j + 1)).prod
        = ((inputs.map Prod.snd).reverse.take (j + 1)).prod * 1 := by omega
      _ ≤ ((inputs.map Prod.snd).reverse.take (j + 1)).prod *
          (((inputs.map Prod.snd).reverse).drop (j + 1)).prod :=
          Nat.mul_le_mul_left _ hdpos
      _ = ((inputs.map Prod.snd).reverse).prod := hsplit
      _ = (inputs.map Prod.snd).prod := List.prod_reverse _

/-- Witness for C10: applied to Scenario C. -/
theorem c10_unchecked_arithmetic_safe_witness :
    (∀ j, j ≤ ([([0, 1, 0], 2), ([2, 0, 1], 3)] :
        List (List Nat × Nat)).dropLast.length →
      ∃ nc, (mixedRadixLoop 8 (([([0, 1, 0], 2), ([2, 0, 1], 3)] :
          List (List Nat × Nat)).dropLast.reverse.take j)
          (((([([0, 1, 0], 2), ([2, 0, 1], 3)] :
            List (List Nat × Nat)).getLastD ([], 0)).1.take 3).map (wrap 8))
          (wrap 8 (([([0, 1, 0], 2), ([2, 0, 1], 3)] :
            List (List Nat × Nat)).getLastD ([], 0)).2)).2 = some nc ∧
        nc ≤ 2 ^ 8 - 1 ∧
        ∀ x ∈ (mixedRadixLoop 8 (([([0, 1, 0], 2), ([2, 0, 1], 3)] :
            List (List Nat × Nat)).dropLast.reverse.take j)
            (((([([0, 1, 0], 2), ([2, 0, 1], 3)] :
              List (List Nat × Nat)).getLastD ([], 0)).1.take 3).map (wrap 8))
            (wrap 8 (([([0, 1, 0], 2), ([2, 0, 1], 3)] :
              List (List Nat × Nat)).getLastD ([], 0)).2)).1, x < nc) ∧
    (∀ j, j < ([([0, 1, 0], 2), ([2, 0, 1], 3)] :
        List (List Nat × Nat)).length →
      ((([([0, 1, 0], 2), ([2, 0, 1], 3)] :
          List (List Nat × Nat)).map Prod.snd).reverse.take (j + 1)).prod ≤
        (([([0, 1, 0], 2), ([2, 0, 1], 3)] :
          List (List Nat × Nat)).map Prod.snd).prod) :=
  c10_unchecked_arithmetic_safe 8 3 [([0, 1, 0], 2), ([2, 0, 1], 3)]
    (by decide) (by decide) (by decide) (by decide) (by decide)

end Factorize
